import Mathlib

/-!
rugoblog: the post pipeline of `cmd/rugoblog/main.go`

A shallow embedding of the static blog generator and the properties of its
post pipeline: file-name parsing, date validation, title and description
extraction, ordering and prev/next linking.

Go strings are byte sequences; they are embedded as lists of byte values
(`GoString`), so that `len`, slicing and indexing are the byte operations of
the source.
-/

namespace Rugoblog

/-! ## Go strings and the `strings` functions the program calls -/

/-- A Go string: its sequence of bytes. -/
abbrev GoString := List Nat

/-- UTF-8 encoding of one character, as the Go compiler stores a literal. -/
def encodeChar (c : Char) : GoString :=
  let n := c.toNat
  if n < 0x80 then [n]
  else if n < 0x800 then [0xC0 + n / 64, 0x80 + n % 64]
  else if n < 0x10000 then [0xE0 + n / 4096, 0x80 + n / 64 % 64, 0x80 + n % 64]
  else [0xF0 + n / 262144, 0x80 + n / 4096 % 64, 0x80 + n / 64 % 64, 0x80 + n % 64]

/-- The bytes of a string literal. -/
def lit (s : String) : GoString :=
  (s.toList.map encodeChar).flatten

/-- The line feed byte. -/
abbrev NL : Nat := 10

/-- The space byte. -/
abbrev SP : Nat := 32

/-- The byte of `#`. -/
abbrev HASH : Nat := 35

/-- ASCII white space of `strings.TrimSpace`: tab, line feed, vertical tab,
form feed, carriage return, space. -/
def isAsciiSpace (b : Nat) : Bool :=
  b == 9 || b == 10 || b == 11 || b == 12 || b == 13 || b == 32

/-- Left trim of `strings.TrimSpace` (`TrimLeftFunc` with `unicode.IsSpace`):
runes are decoded from the front and dropped while they are white space. A
white-space rune is an ASCII space byte or the UTF-8 encoding of U+0085,
U+00A0, U+1680, U+2000..U+200A, U+2028, U+2029, U+202F, U+205F or U+3000; any
other rune, and any byte that does not decode, stops the trim. -/
def trimLeft : GoString → GoString
  | [] => []
  | 0xC2 :: 0x85 :: r => trimLeft r
  | 0xC2 :: 0xA0 :: r => trimLeft r
  | 0xE1 :: 0x9A :: 0x80 :: r => trimLeft r
  | 0xE2 :: 0x80 :: c :: r =>
    if (0x80 ≤ c ∧ c ≤ 0x8A) ∨ c = 0xA8 ∨ c = 0xA9 ∨ c = 0xAF then trimLeft r
    else 0xE2 :: 0x80 :: c :: r
  | 0xE2 :: 0x81 :: 0x9F :: r => trimLeft r
  | 0xE3 :: 0x80 :: 0x80 :: r => trimLeft r
  | b :: r => if isAsciiSpace b then trimLeft r else b :: r

/-- The bytes `lead last` are the UTF-8 encoding of a two-byte white-space
character: U+0085 or U+00A0. -/
def isSpaceTwo (lead last : Nat) : Bool :=
  lead == 0xC2 && (last == 0x85 || last == 0xA0)

/-- The bytes `lead mid last` are the UTF-8 encoding of a three-byte
white-space character: U+1680, U+2000..U+200A, U+2028, U+2029, U+202F, U+205F
or U+3000. -/
def isSpaceThree (lead mid last : Nat) : Bool :=
  (lead == 0xE1 && mid == 0x9A && last == 0x80) ||
  (lead == 0xE2 && mid == 0x80 &&
    (decide (0x80 ≤ last ∧ last ≤ 0x8A) || last == 0xA8 || last == 0xA9 || last == 0xAF)) ||
  (lead == 0xE2 && mid == 0x81 && last == 0x9F) ||
  (lead == 0xE3 && mid == 0x80 && last == 0x80)

/-- Right trim of `strings.TrimSpace` (`TrimRightFunc` with `unicode.IsSpace`),
on the reversed string: the last character is decoded
(`utf8.DecodeLastRuneInString`) and dropped while it is white space. A last
byte below `0x80` is a character of its own, white space when it is an ASCII
space byte; otherwise the last two or the last three bytes must be the
encoding of a white-space character; anything else stops the trim. -/
def trimLeftRev : GoString → GoString
  | [] => []
  | b :: rest =>
    if isAsciiSpace b then trimLeftRev rest
    else
      match rest with
      | [] => b :: rest
      | b1 :: r1 =>
        if isSpaceTwo b1 b then trimLeftRev r1
        else
          match r1 with
          | [] => b :: rest
          | b2 :: r2 => if isSpaceThree b2 b1 b then trimLeftRev r2 else b :: rest

/-- `strings.TrimSpace`: the string without leading and trailing white space
(`TrimRightFunc(TrimLeftFunc(s, unicode.IsSpace), unicode.IsSpace)`; the ASCII
fast path of the library computes the same slice). -/
def TrimSpace (s : GoString) : GoString :=
  (trimLeftRev (trimLeft s).reverse).reverse

/-- `strings.Split(s, "\n")`: the pieces between line feeds; one piece more
than there are line feeds, so the empty string gives one empty piece. -/
def Split : GoString → List GoString
  | [] => [[]]
  | b :: rest =>
    if b = NL then [] :: Split rest
    else
      match Split rest with
      | [] => [[b]]
      | l :: ls => (b :: l) :: ls

/-- `strings.Join(elems, sep)`. -/
def Join : List GoString → GoString → GoString
  | [], _ => []
  | [x], _ => x
  | x :: y :: rest, sep => x ++ sep ++ Join (y :: rest) sep

/-- `strings.HasPrefix(s, prefix)`. -/
def HasPrefix (s pre : GoString) : Bool :=
  pre.isPrefixOf s

/-- `strings.LastIndex(s, sep)` for a one-byte separator: the index of the last
occurrence of the byte, `-1` when there is none. -/
def LastIndex : GoString → Nat → Int
  | [], _ => -1
  | b :: rest, c =>
    let i := LastIndex rest c
    if 0 ≤ i then i + 1 else if b = c then 0 else -1

/-- `strings.TrimSuffix(s, suffix)`. -/
def TrimSuffix (s suf : GoString) : GoString :=
  if suf.isSuffixOf s then s.take (s.length - suf.length) else s

/-! ## The heading pattern `h1Re = (?m)^# (.+)\n*` -/

/-- One match of `h1Re`: byte offsets of the whole match (`loc[0]`, `loc[1]`)
and the text of capture group 1. -/
structure H1Match where
  start : Nat
  stop : Nat
  group : GoString
deriving DecidableEq, Repr

/-- The pattern `# (.+)\n*` tried at the head of `t`, which starts at offset
`pos`: `#`, a space, one or more bytes other than line feed (greedy: the rest
of the line), then every line feed that follows. -/
def h1At (pos : Nat) : GoString → Option H1Match
  | a :: b :: c :: rest =>
    if a = HASH ∧ b = SP ∧ c ≠ NL then
      let cap := c :: rest.takeWhile (· ≠ NL)
      let after := rest.dropWhile (· ≠ NL)
      let nls := after.takeWhile (· = NL)
      some ⟨pos, pos + 2 + cap.length + nls.length, cap⟩
    else none
  | _ => none

/-- The leftmost match of `h1Re` in the text that starts at offset `pos`;
`bol` tells whether `pos` is at the beginning of a line (offset 0 or right
after a line feed), where `(?m)^` holds. -/
def h1Scan (pos : Nat) (bol : Bool) : GoString → Option H1Match
  | [] => none
  | b :: rest =>
    match (if bol then h1At pos (b :: rest) else none) with
    | some m => some m
    | none => h1Scan (pos + 1) (b == NL) rest

/-- `h1Re.FindStringSubmatch(s)` / `h1Re.FindStringIndex(s)`: the leftmost
match of the heading pattern, `none` for Go's `nil`. -/
def h1Find (s : GoString) : Option H1Match :=
  h1Scan 0 true s

/-! ## Content extraction -/

/-- The fallback title. -/
def untitled : GoString := lit "Untitled"

/-- The ellipsis character U+2026 appended to a truncated description. -/
def ellipsis : GoString := [0xE2, 0x80, 0xA6]

/-- `extractTitle`. -/
def extractTitle (s : GoString) : GoString :=
  match h1Find s with
  | some m => TrimSpace m.group
  | none => untitled

/-- `stripFirstH1`. -/
def stripFirstH1 (s : GoString) : GoString :=
  match h1Find s with
  | some m => if m.start < 100 then s.drop m.stop else s
  | none => s

/-- The test that ends the first paragraph: the trimmed line is empty, starts
with `#` or starts with three backquotes. -/
def isBreak (trimmed : GoString) : Bool :=
  trimmed == [] || HasPrefix trimmed [HASH] || HasPrefix trimmed [96, 96, 96]

/-- The `for ... range strings.Split(body, "\n")` loop of `extractDesc`:
`acc` is the slice `lines` built so far; the loop breaks at the first line
that passes `isBreak`. -/
def collectLoop (acc : List GoString) : List GoString → List GoString
  | [] => acc
  | line :: rest =>
    let trimmed := TrimSpace line
    if isBreak trimmed then acc else collectLoop (acc ++ [trimmed]) rest

/-- The value of `desc` after `strings.Join(lines, " ")` in `extractDesc`. -/
def joinedDesc (s : GoString) : GoString :=
  let body := TrimSpace (stripFirstH1 s)
  Join (collectLoop [] (Split body)) [SP]

/-- The truncation at the end of `extractDesc`. -/
def truncateDesc (desc : GoString) : GoString :=
  if desc.length > 200 then
    let desc1 := desc.take 200
    let i := LastIndex desc1 SP
    let desc2 := if i > 100 then desc1.take i.toNat else desc1
    desc2 ++ ellipsis
  else desc

/-- `extractDesc`. -/
def extractDesc (s : GoString) : GoString :=
  truncateDesc (joinedDesc s)

/-- The loop of `stripFirstParagraph` over `lines[i:]`: the lines from the
first break line on, joined with line feeds; the empty string when no line
breaks. -/
def stripLoop : List GoString → GoString
  | [] => []
  | line :: rest =>
    if isBreak (TrimSpace line) then Join (line :: rest) [NL] else stripLoop rest

/-- `stripFirstParagraph`. -/
def stripFirstParagraph (s : GoString) : GoString :=
  stripLoop (Split (TrimSpace s))

/-! ## Lines -/

/-- The first line of a text: the bytes before the first line feed. -/
def firstLine (s : GoString) : GoString := s.takeWhile (· ≠ NL)

/-- The text from the first line feed on (empty when there is none). -/
def afterLine (s : GoString) : GoString := s.dropWhile (· ≠ NL)

/-- A title heading line: it begins with `# ` and has at least one more byte. -/
def isHeading (l : GoString) : Bool :=
  HasPrefix l [HASH, SP] && decide (2 < l.length)

/-! ## File names: the discovery glob and the pattern `postFile` -/

/-- An ASCII digit, the class `[0-9]` of the glob and `\d` of the pattern. -/
def isDigit (b : Nat) : Bool := decide (48 ≤ b ∧ b ≤ 57)

/-- The byte of `-`. -/
abbrev HYPHEN : Nat := 45

/-- The byte of `/`, the path separator. -/
abbrev SLASH : Nat := 47

/-- The suffix `.md`. -/
def dotMd : GoString := [46, 109, 100]

/-- The common head `DDDD-DD-DD-` of the glob and of `postFile`: the ten bytes
of the date part and the bytes after the third hyphen. -/
def splitDatePrefix : GoString → Option (GoString × GoString)
  | y1 :: y2 :: y3 :: y4 :: h1 :: m1 :: m2 :: h2 :: d1 :: d2 :: h3 :: rest =>
    if isDigit y1 && isDigit y2 && isDigit y3 && isDigit y4 && h1 == HYPHEN
        && isDigit m1 && isDigit m2 && h2 == HYPHEN
        && isDigit d1 && isDigit d2 && h3 == HYPHEN then
      some ([y1, y2, y3, y4, h1, m1, m2, h2, d1, d2], rest)
    else none
  | _ => none

/-- `filepath.Match` with the pattern
`[0-9][0-9][0-9][0-9]-[0-9][0-9]-[0-9][0-9]-*.md` on a base name: the date
head, then any bytes other than the separator (possibly none), then `.md`. -/
def globMatch (name : GoString) : Bool :=
  match splitDatePrefix name with
  | some (_, rest) =>
    dotMd.isSuffixOf rest && !(rest.take (rest.length - 3)).contains SLASH
  | none => false

/-- `postFile.FindStringSubmatch(base)` for
`^(\d{4}-\d{2}-\d{2})-(.+)\.md$`: group 1 (the date part) and group 2 (the
fragment: one or more bytes, none a line feed); `none` for Go's `nil`. -/
def postFile (base : GoString) : Option (GoString × GoString) :=
  match splitDatePrefix base with
  | some (date, rest) =>
    let frag := rest.take (rest.length - 3)
    if dotMd.isSuffixOf rest && frag != [] && !frag.contains NL then some (date, frag)
    else none
  | none => none

/-! ## Dates: `time.Parse("2006-01-02", ...)`, `Time.After`, `Time.Format` -/

/-- A `time.Time` that holds a calendar date at midnight UTC. -/
structure Date where
  year : Nat
  month : Nat
  day : Nat
deriving DecidableEq, Repr

/-- `isLeap` of package `time`. -/
def isLeap (year : Nat) : Bool :=
  year % 4 == 0 && (year % 100 != 0 || year % 400 == 0)

/-- `daysIn` of package `time`: the number of days of a month. -/
def daysIn (month year : Nat) : Nat :=
  if month = 2 ∧ isLeap year = true then 29
  else
    match month with
    | 1 => 31 | 2 => 28 | 3 => 31 | 4 => 30 | 5 => 31 | 6 => 30
    | 7 => 31 | 8 => 31 | 9 => 30 | 10 => 31 | 11 => 30 | 12 => 31
    | _ => 0

/-- The value of an ASCII digit. -/
def digitVal (b : Nat) : Nat := b - 48

/-- `time.Parse("2006-01-02", value)`: a four-digit year, a two-digit month
and a two-digit day separated by hyphens, nothing else; the month must be in
1..12 and the day in 1..`daysIn`. `none` stands for the parse error. -/
def parseDate : GoString → Option Date
  | [y1, y2, y3, y4, h1, m1, m2, h2, d1, d2] =>
    if isDigit y1 && isDigit y2 && isDigit y3 && isDigit y4 && h1 == HYPHEN
        && isDigit m1 && isDigit m2 && h2 == HYPHEN
        && isDigit d1 && isDigit d2 then
      let year := digitVal y1 * 1000 + digitVal y2 * 100 + digitVal y3 * 10 + digitVal y4
      let month := digitVal m1 * 10 + digitVal m2
      let day := digitVal d1 * 10 + digitVal d2
      if month ≤ 0 ∨ 12 < month then none
      else if day < 1 ∨ day > daysIn month year then none
      else some ⟨year, month, day⟩
    else none
  | _ => none

/-- `Time.After` on dates: `a` is a later day than `b`. -/
def Date.After (a b : Date) : Bool :=
  decide (b.year < a.year) ||
    (a.year == b.year &&
      (decide (b.month < a.month) || (a.month == b.month && decide (b.day < a.day))))

/-- A number as `width` zero-padded decimal digits (`appendInt`). -/
def padDigits : Nat → Nat → GoString
  | 0, _ => []
  | w + 1, n => padDigits w (n / 10) ++ [48 + n % 10]

/-- `Time.Format("2006-01-02")` of a date whose year has at most four
digits. -/
def Date.formatISO (d : Date) : GoString :=
  padDigits 4 d.year ++ [HYPHEN] ++ padDigits 2 d.month ++ [HYPHEN] ++ padDigits 2 d.day

/-! ## Posts and the build -/

/-- `PostLink`. -/
structure PostLink where
  Slug : GoString
  Title : GoString
deriving DecidableEq, Repr

/-- `Post`; `Prev` and `Next` are `none` for the nil pointer. -/
structure Post where
  Slug : GoString
  Title : GoString
  Desc : GoString
  Date : Date
  HTML : GoString
  Prev : Option PostLink
  Next : Option PostLink
deriving DecidableEq, Repr

/-- `Post.DateISO`. -/
def Post.DateISO (p : Post) : GoString := p.Date.formatISO

/-- One entry of the directory `posts`: its base name and what `os.ReadFile`
gives for it (`none` when the read fails). -/
structure SourceFile where
  name : GoString
  content : Option GoString
deriving DecidableEq, Repr

/-- Why `run` returned an error. -/
inductive BuildError where
  | creatingOutputDir
  | parsingTemplates
  | noPostFiles
  | parsingDate (base : GoString)
  | reading (base : GoString)
  | converting (base : GoString)
  | writingLogo
  | creatingFile (name : GoString)
  | renderingIndex
  | renderingPost (slug : GoString)
deriving DecidableEq, Repr

/-- What a successful `run` produced: the collection handed to the templates
and the names of the files written to the output directory, in order. -/
structure Site where
  posts : List Post
  written : List GoString
deriving DecidableEq, Repr

/-- The result of `run`: the error, or the site. -/
inductive BuildResult where
  | error (e : BuildError)
  | ok (site : Site)
deriving DecidableEq, Repr

/-- Go string comparison `a < b`: byte-wise lexicographic. -/
def strLess : GoString → GoString → Bool
  | [], [] => false
  | [], _ :: _ => true
  | _ :: _, [] => false
  | a :: as, b :: bs => decide (a < b) || (a == b && strLess as bs)

/-- `sort.Strings`: the strings in increasing order. -/
def sortStrings (xs : List GoString) : List GoString :=
  xs.insertionSort (fun a b => strLess b a = false)

/-- A strict weak ordering, what `sort.Slice` asks of its `less`. -/
structure StrictWeak (less : Post → Post → Bool) : Prop where
  irrefl : ∀ a, less a a = false
  trans : ∀ a b c, less a b = true → less b c = true → less a c = true
  incomp : ∀ a b c, less a b = false → less b a = false →
    less b c = false → less c b = false → less a c = false ∧ less c a = false

/-- `sort.Slice`, a library function whose algorithm is not part of the
program: it permutes the slice, and when `less` is a strict weak ordering no
element of the result is `less` than an element before it. Ties may come out
in any order (the sort is not stable). -/
structure SliceSorter where
  sort : (Post → Post → Bool) → List Post → List Post
  perm : ∀ less xs, (sort less xs).Perm xs
  sorted : ∀ less xs, StrictWeak less →
    (sort less xs).Pairwise (fun a b => less b a = false)

/-- The `less` function of `run`: `posts[i].Date.After(posts[j].Date)`. -/
def newerFirst (a b : Post) : Bool := a.Date.After b.Date

/-- `os.ReadFile` on an entry of the directory. -/
def readFile (dir : List SourceFile) (base : GoString) : Option GoString :=
  match dir.find? (fun f => f.name == base) with
  | some f => f.content
  | none => none

/-- The loop of `run` over the sorted file list; `posts` is the slice built
so far. A name that `postFile` does not match is skipped; a date that does
not parse, a failed read and a failed conversion end the build. `convert`
is `md.Convert`, `none` for its error. -/
def buildLoop (dir : List SourceFile) (convert : GoString → Option GoString) :
    List GoString → List Post → Except BuildError (List Post)
  | [], posts => .ok posts
  | base :: rest, posts =>
    match postFile base with
    | none => buildLoop dir convert rest posts
    | some m =>
      match parseDate m.1 with
      | none => .error (.parsingDate base)
      | some date =>
        match readFile dir base with
        | none => .error (.reading base)
        | some text =>
          let title := extractTitle text
          let desc := extractDesc text
          let content := stripFirstParagraph (stripFirstH1 text)
          match convert content with
          | none => .error (.converting base)
          | some html =>
            let slug := TrimSuffix base dotMd
            buildLoop dir convert rest
              (posts ++ [⟨slug, title, desc, date, html, none, none⟩])

/-- The assignment `posts[i].Prev = &PostLink{...}`. -/
def setPrev (posts : List Post) (i : Nat) (link : PostLink) : List Post :=
  match posts[i]? with
  | some p => posts.set i { p with Prev := some link }
  | none => posts

/-- The assignment `posts[i].Next = &PostLink{...}`. -/
def setNext (posts : List Post) (i : Nat) (link : PostLink) : List Post :=
  match posts[i]? with
  | some p => posts.set i { p with Next := some link }
  | none => posts

/-- One iteration of the prev/next loop, on the slice as it stands. -/
def wireStep (posts : List Post) (i : Nat) : List Post :=
  let posts1 :=
    if 0 < i then
      match posts[i - 1]? with
      | some q => setPrev posts i ⟨q.Slug, q.Title⟩
      | none => posts
    else posts
  if i + 1 < posts1.length then
    match posts1[i + 1]? with
    | some q => setNext posts1 i ⟨q.Slug, q.Title⟩
    | none => posts1
  else posts1

/-- The prev/next loop `for i := range posts`. -/
def wire (posts : List Post) : List Post :=
  (List.range posts.length).foldl wireStep posts

/-- The files `run` writes once the collection is built: the logo, the index
page, one page per post. -/
def outputFiles (posts : List Post) : List GoString :=
  lit "goro.svg" :: lit "index.html" :: posts.map (fun p => p.Slug ++ lit ".html")

/-- The calls of `run` whose outcome depends on the output directory and on
the embedded templates, each as the answer to "does it succeed":
`os.MkdirAll(outDir)`, `template.ParseFS`, `os.WriteFile` of the logo,
`os.Create` of a file of the output directory (by its name), and
`ExecuteTemplate` for the index page and for a post page. -/
structure OutputSide where
  mkdirAll : Bool
  parseTemplates : Bool
  writeLogo : Bool
  create : GoString → Bool
  executeIndex : List Post → Bool
  executePost : Post → List Post → Bool

/-- The loop `for _, p := range posts` that renders the post pages: the first
page that cannot be created or rendered ends the build. -/
def renderPosts (out : OutputSide) (all : List Post) : List Post → Option BuildError
  | [] => none
  | p :: rest =>
    if out.create (p.Slug ++ lit ".html") then
      if out.executePost p all then renderPosts out all rest
      else some (.renderingPost p.Slug)
    else some (.creatingFile (p.Slug ++ lit ".html"))

/-- `run`, on the entries `dir` of the directory `posts` and the output side
`out`. Paths are `posts/` followed by the base name, so sorting the paths is
sorting the base names and `filepath.Base` gives the name back.
`filepath.Glob` fails on a malformed pattern only, which the constant pattern
is not. A successful build is recorded as the collection handed to the
templates and the list of the files written. -/
def run (S : SliceSorter) (out : OutputSide) (dir : List SourceFile)
    (convert : GoString → Option GoString) : BuildResult :=
  if !out.mkdirAll then .error .creatingOutputDir
  else if !out.parseTemplates then .error .parsingTemplates
  else
    let files := sortStrings ((dir.map (fun f => f.name)).filter globMatch)
    if files.length = 0 then .error .noPostFiles
    else
      match buildLoop dir convert files [] with
      | .error e => .error e
      | .ok posts =>
        let sorted := S.sort newerFirst posts
        let wired := wire sorted
        if !out.writeLogo then .error .writingLogo
        else if !out.create (lit "index.html") then .error (.creatingFile (lit "index.html"))
        else if !out.executeIndex wired then .error .renderingIndex
        else
          match renderPosts out wired wired with
          | some e => .error e
          | none => .ok ⟨wired, outputFiles wired⟩

/-- An output side on which every call succeeds. -/
def outputOk : OutputSide :=
  ⟨true, true, true, fun _ => true, fun _ => true, fun _ _ => true⟩

/-- An output side on which every call succeeds except the creation of a file
whose name is longer than 255 bytes, the limit of the usual file systems. -/
def outputNameLimit : OutputSide :=
  ⟨true, true, true, fun name => decide (name.length ≤ 255), fun _ => true, fun _ _ => true⟩

/-- Every call of the output side succeeds. -/
def OutputSide.Succeeds (out : OutputSide) : Prop :=
  out.mkdirAll = true ∧ out.parseTemplates = true ∧ out.writeLogo = true ∧
    (∀ name, out.create name = true) ∧ (∀ posts, out.executeIndex posts = true) ∧
    (∀ p posts, out.executePost p posts = true)

/-- Insertion sort, what `sort.Slice` runs on a slice of at most twelve
elements; it is one `SliceSorter`. -/
def insertionSorter : SliceSorter where
  sort less xs := xs.insertionSort (fun a b => less b a = false)
  perm less xs := List.perm_insertionSort _ xs
  sorted less xs h := by
    haveI : IsTotal Post (fun a b => less b a = false) := ⟨fun a b => by
      cases hba : less b a
      · exact Or.inl rfl
      · right
        cases hab : less a b
        · rfl
        · have := h.trans a b a hab hba
          rw [h.irrefl a] at this
          cases this⟩
    haveI : IsTrans Post (fun a b => less b a = false) := ⟨fun a b c hab hbc => by
      show less c a = false
      have hab' : less b a = false := hab
      have hbc' : less c b = false := hbc
      cases hca : less c a
      · rfl
      · have h1 : less a b = false := by
          cases hx : less a b
          · rfl
          · rw [h.trans c a b hca hx] at hbc'; cases hbc'
        have h2 : less b c = false := by
          cases hx : less b c
          · rfl
          · rw [h.trans b c a hx hca] at hab'; cases hab'
        have := (h.incomp a b c h1 hab' h2 hbc').2
        rw [hca] at this; cases this⟩
    exact List.sorted_insertionSort _ xs

/-! ## Specification-side notions -/

/-- The UTF-8 encodings of the white-space characters of `unicode.IsSpace`:
tab, line feed, vertical tab, form feed, carriage return, space, U+0085,
U+00A0, U+1680, U+2000..U+200A, U+2028, U+2029, U+202F, U+205F, U+3000. -/
def spaceEncodings : List GoString :=
  [[0x09], [0x0A], [0x0B], [0x0C], [0x0D], [0x20],
   [0xC2, 0x85], [0xC2, 0xA0], [0xE1, 0x9A, 0x80],
   [0xE2, 0x80, 0x80], [0xE2, 0x80, 0x81], [0xE2, 0x80, 0x82], [0xE2, 0x80, 0x83],
   [0xE2, 0x80, 0x84], [0xE2, 0x80, 0x85], [0xE2, 0x80, 0x86], [0xE2, 0x80, 0x87],
   [0xE2, 0x80, 0x88], [0xE2, 0x80, 0x89], [0xE2, 0x80, 0x8A],
   [0xE2, 0x80, 0xA8], [0xE2, 0x80, 0xA9], [0xE2, 0x80, 0xAF],
   [0xE2, 0x81, 0x9F], [0xE3, 0x80, 0x80]]

/-- The text starts with a white-space character. -/
def startsWithSpace (t : GoString) : Bool :=
  spaceEncodings.any (fun e => e.isPrefixOf t)

/-- The text ends with a white-space character. -/
def endsWithSpace (t : GoString) : Bool :=
  spaceEncodings.any (fun e => e.isSuffixOf t)

/-- The text consists of white-space characters only. -/
def IsSpaces (x : GoString) : Prop :=
  ∃ es : List GoString, (∀ e ∈ es, e ∈ spaceEncodings) ∧ x = es.flatten

/-- The text `t` is `s` with its leading and trailing white space trimmed:
`s` is white space, then `t`, then white space, and `t` neither starts nor
ends with a white-space character. -/
def IsTrimOf (t s : GoString) : Prop :=
  ∃ pre post, s = pre ++ t ++ post ∧ IsSpaces pre ∧ IsSpaces post ∧
    startsWithSpace t = false ∧ endsWithSpace t = false

/-- The link that points to a post: its slug and title. -/
def linkOf (q : Post) : PostLink := ⟨q.Slug, q.Title⟩

/-- The post at index `i` of `ps` with the links the link-wiring pass is to
give it: `Prev` from the element before, `Next` from the element after, each
left as it was at the ends. -/
def linked (ps : List Post) (i : Nat) (p : Post) : Post :=
  { p with
    Prev := if 0 < i then ps[i - 1]?.map linkOf else p.Prev
    Next := if i + 1 < ps.length then ps[i + 1]?.map linkOf else p.Next }

/-- The slice after the first `k` iterations of the prev/next loop. -/
def wiredUpTo (ps : List Post) (k : Nat) : List Post :=
  (List.range k).foldl wireStep ps

/-- The post the loop of `run` appends for one file name, when the name is a
post name and parsing, reading and converting all succeed. -/
def postOf (dir : List SourceFile) (convert : GoString → Option GoString)
    (base : GoString) : Option Post :=
  match postFile base with
  | none => none
  | some m =>
    match parseDate m.1, readFile dir base with
    | some date, some text =>
      (convert (stripFirstParagraph (stripFirstH1 text))).map fun html =>
        ⟨TrimSuffix base dotMd, extractTitle text, extractDesc text, date, html, none, none⟩
    | _, _ => none

/-- The file list `run` iterates over: the names the glob discovers, sorted. -/
def discovered (dir : List SourceFile) : List GoString :=
  sortStrings ((dir.map (fun f => f.name)).filter globMatch)

/-! ## Example inputs -/

/-- A stand-in for `md.Convert` that succeeds on every text. -/
def echoConvert (content : GoString) : Option GoString := some content

/-- The two-post directory of the end-to-end example. -/
def twoPosts : List SourceFile :=
  [⟨lit "2024-01-01-a.md", some (lit "# A\n\nFirst.")⟩,
   ⟨lit "2024-02-01-b.md", some (lit "# B\n\nSecond.")⟩]

/-- The post built from `2024-01-01-a.md` in the example, with its links. -/
def postA : Post :=
  ⟨lit "2024-01-01-a", lit "A", lit "First.", ⟨2024, 1, 1⟩, [],
    some ⟨lit "2024-02-01-b", lit "B"⟩, none⟩

/-- The post built from `2024-02-01-b.md` in the example, with its links. -/
def postB : Post :=
  ⟨lit "2024-02-01-b", lit "B", lit "Second.", ⟨2024, 2, 1⟩, [],
    none, some ⟨lit "2024-01-01-a", lit "A"⟩⟩

/-- The site built from `twoPosts`. -/
def twoPostsSite : Site :=
  ⟨[postB, postA],
    [lit "goro.svg", lit "index.html", lit "2024-02-01-b.html", lit "2024-01-01-a.html"]⟩

/-- The parts of a base name of the shape `YYYY-MM-DD-<fragment>.md` (four
digits, hyphen, two digits, hyphen, two digits, hyphen, fragment, `.md`): the
year, month and day numbers and the fragment; `none` for any other name. The
fragment may be empty and may hold any byte. -/
def nameParts : GoString → Option (Nat × Nat × Nat × GoString)
  | y1 :: y2 :: y3 :: y4 :: h1 :: m1 :: m2 :: h2 :: d1 :: d2 :: h3 :: rest =>
    if isDigit y1 && isDigit y2 && isDigit y3 && isDigit y4 && h1 == HYPHEN
        && isDigit m1 && isDigit m2 && h2 == HYPHEN
        && isDigit d1 && isDigit d2 && h3 == HYPHEN && dotMd.isSuffixOf rest then
      some (digitVal y1 * 1000 + digitVal y2 * 100 + digitVal y3 * 10 + digitVal y4,
        digitVal m1 * 10 + digitVal m2, digitVal d1 * 10 + digitVal d2,
        rest.take (rest.length - 3))
    else none
  | _ => none

/-- A real calendar date: the month is in 1..12 and the day in 1..the number
of days of that month, leap years included. -/
def realDate (y m d : Nat) : Bool :=
  decide (1 ≤ m ∧ m ≤ 12 ∧ 1 ≤ d ∧ d ≤ daysIn m y)

/-- A directory with a well-formed post and a file whose name has a line feed
in its fragment and the date part `2024-02-30`. -/
def lineFeedDir : List SourceFile :=
  [⟨lit "2024-02-30-a\nb.md", some (lit "# X\n\nLost.")⟩,
   ⟨lit "2024-01-01-ok.md", some (lit "# T\n\nText.")⟩]

/-- The site built from `lineFeedDir`: the post of `2024-01-01-ok.md` alone. -/
def lineFeedSite : Site :=
  ⟨[⟨lit "2024-01-01-ok", lit "T", lit "Text.", ⟨2024, 1, 1⟩, [], none, none⟩],
    [lit "goro.svg", lit "index.html", lit "2024-01-01-ok.html"]⟩

/-- A base name of the shape `YYYY-MM-DD-<non-empty fragment>.md`. -/
def hasPostShape (name : GoString) : Bool :=
  match nameParts name with
  | some (_, _, _, frag) => frag != []
  | none => false

/-- A base name of the shape `YYYY-MM-DD-<fragment>.md` whose fragment has at
least one byte and no line feed. -/
def isPostName (name : GoString) : Bool :=
  match nameParts name with
  | some (_, _, _, frag) => frag != [] && !frag.contains NL
  | none => false

/-- A base name without its last three bytes (the extension `.md`). -/
def dropExt (name : GoString) : GoString := name.take (name.length - 3)

/-- The space-joined first paragraph of a text, in the words of the
specification: the trimmed lines, in order, up to and excluding the first
that is empty or starts with `#` or with three backquotes, joined with single
spaces. -/
def firstParagraph (t : GoString) : GoString :=
  Join (((Split t).map TrimSpace).takeWhile (fun l => !isBreak l)) [SP]

/-- A text with white space around it and around its lines. -/
def spacedText : GoString :=
  lit "  \tFirst para  \n second line\u00a0\n \t \n  more\ntext \n\n"

/-- The text `spacedText` without its leading and trailing white space. -/
def spacedTrimmed : GoString :=
  lit "First para  \n second line\u00a0\n \t \n  more\ntext"

/-- The trimmed lines of `spacedTrimmed`. -/
def spacedLines : List GoString :=
  [lit "First para", lit "second line", [], lit "more", lit "text"]

/-- A paragraph of 250 letters `a`, without any space. -/
def longWord : GoString := List.replicate 250 97

/-- A paragraph of 250 bytes: 150 letters, a space, 99 letters. -/
def longLine : GoString := List.replicate 150 97 ++ SP :: List.replicate 99 98

/-- A directory with one post whose base name has 255 bytes, the longest a
file name may be on the usual file systems. -/
def longNameDir : List SourceFile :=
  [⟨lit "2024-01-01-" ++ List.replicate 241 97 ++ dotMd, some (lit "# T\n\nText.")⟩]

/-- A directory with an unrelated file and a post file dated 30 February. -/
def badDateDir : List SourceFile :=
  [⟨lit "README.md", some (lit "About.")⟩,
   ⟨lit "2024-02-30-x.md", some (lit "# X\n\nText.")⟩]

/-! ## UTF-8 -/

/-- A UTF-8 continuation byte, `0x80..0xBF`. -/
def isCont (b : Nat) : Bool := decide (0x80 ≤ b ∧ b ≤ 0xBF)

/-- The bytes `b0 b1` are a well-formed two-byte sequence. -/
def isTwoByte (b0 b1 : Nat) : Bool := decide (0xC2 ≤ b0 ∧ b0 ≤ 0xDF) && isCont b1

/-- The bytes `b0 b1 b2` are a well-formed three-byte sequence (no overlong
form, no surrogate). -/
def isThreeByte (b0 b1 b2 : Nat) : Bool :=
  isCont b2 &&
    ((b0 == 0xE0 && decide (0xA0 ≤ b1 ∧ b1 ≤ 0xBF)) ||
     (decide (0xE1 ≤ b0 ∧ b0 ≤ 0xEC) && isCont b1) ||
     (b0 == 0xED && decide (0x80 ≤ b1 ∧ b1 ≤ 0x9F)) ||
     (decide (0xEE ≤ b0 ∧ b0 ≤ 0xEF) && isCont b1))

/-- The bytes `b0 b1 b2 b3` are a well-formed four-byte sequence (up to
U+10FFFF). -/
def isFourByte (b0 b1 b2 b3 : Nat) : Bool :=
  isCont b2 && isCont b3 &&
    ((b0 == 0xF0 && decide (0x90 ≤ b1 ∧ b1 ≤ 0xBF)) ||
     (decide (0xF1 ≤ b0 ∧ b0 ≤ 0xF3) && isCont b1) ||
     (b0 == 0xF4 && decide (0x80 ≤ b1 ∧ b1 ≤ 0x8F)))

/-- `utf8.ValidString`: the bytes are a sequence of well-formed UTF-8
encodings. -/
def validUTF8 : GoString → Bool
  | [] => true
  | b0 :: rest =>
    if b0 < 0x80 then validUTF8 rest
    else
      match rest with
      | [] => false
      | b1 :: r1 =>
        if isTwoByte b0 b1 then validUTF8 r1
        else
          match r1 with
          | [] => false
          | b2 :: r2 =>
            if isThreeByte b0 b1 b2 then validUTF8 r2
            else
              match r2 with
              | [] => false
              | b3 :: r3 => if isFourByte b0 b1 b2 b3 then validUTF8 r3 else false

/-- The width in bytes of the first character of a text, as
`utf8.DecodeRuneInString` gives it: the length of a well-formed encoding at
its head, 1 for a byte that starts none. -/
def runeWidth : GoString → Nat
  | [] => 0
  | b0 :: rest =>
    if b0 < 0x80 then 1
    else
      match rest with
      | [] => 1
      | b1 :: r1 =>
        if isTwoByte b0 b1 then 2
        else
          match r1 with
          | [] => 1
          | b2 :: r2 =>
            if isThreeByte b0 b1 b2 then 3
            else
              match r2 with
              | [] => 1
              | b3 :: _ => if isFourByte b0 b1 b2 b3 then 4 else 1

/-- The number of characters of a text of which the first `skip` bytes belong
to a character already counted. -/
def runeCountFrom (skip : Nat) : GoString → Nat
  | [] => 0
  | b :: rest =>
    if 0 < skip then runeCountFrom (skip - 1) rest
    else 1 + runeCountFrom (runeWidth (b :: rest) - 1) rest

/-- `utf8.RuneCountInString`: the number of characters (code points); a byte
that starts no well-formed encoding counts as one. -/
def runeCount (s : GoString) : Nat := runeCountFrom 0 s

/-- The text of `n` repetitions of a character given by its bytes. -/
def repeatChar (n : Nat) (c : GoString) : GoString :=
  (List.replicate n c).flatten

/-- A paragraph of 150 letters `é` (two bytes each: 300 bytes). -/
def accents : GoString := repeatChar 150 [0xC3, 0xA9]

/-- A paragraph of 250 characters `中` (three bytes each: 750 bytes), without
any space. -/
def ideographs : GoString := repeatChar 250 [0xE4, 0xB8, 0xAD]

/-! ## The title heading, by lines -/

/-- The first title heading line among `lines`, which start at byte offset
`off` of the text: its byte offset and its length. -/
def headingSpanFrom (off : Nat) : List GoString → Option (Nat × Nat)
  | [] => none
  | l :: ls =>
    if isHeading l then some (off, l.length) else headingSpanFrom (off + l.length + 1) ls

/-- The first title heading line of a text: the byte offset at which it
starts and its length, `none` when no line is a title heading line. -/
def headingSpan (s : GoString) : Option (Nat × Nat) :=
  headingSpanFrom 0 (Split s)

/-! # Properties -/

set_option maxRecDepth 200000

/-! ## White-space trimming -/

theorem trimLeft_enc (e : GoString) (he : e ∈ spaceEncodings) (r : GoString) :
    trimLeft (e ++ r) = trimLeft r := by
  simp only [spaceEncodings, List.mem_cons, List.mem_singleton, List.not_mem_nil, or_false] at he
  rcases he with rfl | rfl | rfl | rfl | rfl | rfl | rfl | rfl | rfl | rfl | rfl | rfl | rfl |
    rfl | rfl | rfl | rfl | rfl | rfl | rfl | rfl | rfl | rfl | rfl | rfl <;>
    simp [trimLeft, isAsciiSpace]

theorem startsWithSpace_iff (t : GoString) :
    startsWithSpace t = true ↔ ∃ e ∈ spaceEncodings, e <+: t := by
  simp [startsWithSpace, List.any_eq_true]

theorem endsWithSpace_iff (t : GoString) :
    endsWithSpace t = true ↔ ∃ e ∈ spaceEncodings, e <:+ t := by
  simp [endsWithSpace, List.any_eq_true]

theorem startsWithSpace_enc (e : GoString) (he : e ∈ spaceEncodings) (r : GoString) :
    startsWithSpace (e ++ r) = true :=
  (startsWithSpace_iff _).2 ⟨e, he, List.prefix_append e r⟩

theorem startsWithSpace_two (a b : Nat) (r : GoString) (h : [a, b] ∈ spaceEncodings) :
    startsWithSpace (a :: b :: r) = true :=
  startsWithSpace_enc [a, b] h r

theorem startsWithSpace_three (a b c : Nat) (r : GoString)
    (h : [a, b, c] ∈ spaceEncodings) : startsWithSpace (a :: b :: c :: r) = true :=
  startsWithSpace_enc [a, b, c] h r

theorem startsWithSpace_ascii (b : Nat) (r : GoString) (hb : isAsciiSpace b = true) :
    startsWithSpace (b :: r) = true := by
  simp only [isAsciiSpace, Bool.or_eq_true, beq_iff_eq] at hb
  rcases hb with ((((rfl | rfl) | rfl) | rfl) | rfl) | rfl
  · exact startsWithSpace_enc [9] (by decide) r
  · exact startsWithSpace_enc [10] (by decide) r
  · exact startsWithSpace_enc [11] (by decide) r
  · exact startsWithSpace_enc [12] (by decide) r
  · exact startsWithSpace_enc [13] (by decide) r
  · exact startsWithSpace_enc [32] (by decide) r

theorem mem_spaceEncodings_e2 (c : Nat)
    (hc : (0x80 ≤ c ∧ c ≤ 0x8A) ∨ c = 0xA8 ∨ c = 0xA9 ∨ c = 0xAF) :
    [0xE2, 0x80, c] ∈ spaceEncodings := by
  rcases hc with ⟨h1, h2⟩ | rfl | rfl | rfl
  · interval_cases c <;> decide
  · decide
  · decide
  · decide

theorem trimLeft_stop (s : GoString) (h : startsWithSpace s = false) : trimLeft s = s := by
  unfold trimLeft
  split
  · rfl
  · rw [startsWithSpace_two _ _ _ (by decide)] at h; cases h
  · rw [startsWithSpace_two _ _ _ (by decide)] at h; cases h
  · rw [startsWithSpace_three _ _ _ _ (by decide)] at h; cases h
  · rename_i c r
    split
    · rename_i hc
      rw [startsWithSpace_three _ _ _ _ (mem_spaceEncodings_e2 c hc)] at h; cases h
    · rfl
  · rw [startsWithSpace_three _ _ _ _ (by decide)] at h; cases h
  · rw [startsWithSpace_three _ _ _ _ (by decide)] at h; cases h
  · rename_i b r _ _ _ _ _ _
    split
    · rename_i hb
      rw [startsWithSpace_ascii b r hb] at h
      cases h
    · rfl

theorem isSpaces_nil : IsSpaces [] := ⟨[], by simp, rfl⟩

theorem isSpaces_cons (e x : GoString) (he : e ∈ spaceEncodings) (hx : IsSpaces x) :
    IsSpaces (e ++ x) := by
  obtain ⟨es, hes, rfl⟩ := hx
  exact ⟨e :: es, by simpa [he] using hes, by simp⟩

theorem enc_length_pos (e : GoString) (he : e ∈ spaceEncodings) : 0 < e.length := by
  revert e
  decide

theorem trimLeft_spec_aux (n : Nat) : ∀ s : GoString, s.length ≤ n →
    ∃ pre, s = pre ++ trimLeft s ∧ IsSpaces pre ∧ startsWithSpace (trimLeft s) = false := by
  induction n with
  | zero =>
    intro s hs
    have : s = [] := List.length_eq_zero.1 (by omega)
    subst this
    exact ⟨[], by simp [trimLeft], isSpaces_nil, by decide⟩
  | succ n ih =>
    intro s hs
    cases hst : startsWithSpace s
    · rw [trimLeft_stop s hst]
      exact ⟨[], by simp, isSpaces_nil, hst⟩
    · obtain ⟨e, he, r, rfl⟩ := (startsWithSpace_iff s).1 hst
      rw [trimLeft_enc e he r]
      have hpos := enc_length_pos e he
      obtain ⟨pre, hpre, hsp, hstop⟩ := ih r (by simp at hs; omega)
      refine ⟨e ++ pre, ?_, isSpaces_cons e pre he hsp, hstop⟩
      rw [List.append_assoc, ← hpre]

theorem trimLeft_spec (s : GoString) :
    ∃ pre, s = pre ++ trimLeft s ∧ IsSpaces pre ∧ startsWithSpace (trimLeft s) = false :=
  trimLeft_spec_aux s.length s (le_refl _)

theorem endsWithSpace_enc (e : GoString) (he : e ∈ spaceEncodings) (r : GoString) :
    endsWithSpace (r ++ e) = true :=
  (endsWithSpace_iff _).2 ⟨e, he, List.suffix_append r e⟩

theorem endsWithSpace_rev_one (a : Nat) (r : GoString) (h : [a] ∈ spaceEncodings) :
    endsWithSpace (a :: r).reverse = true := by
  have := endsWithSpace_enc [a] h r.reverse
  simpa using this

theorem endsWithSpace_rev_two (a b : Nat) (r : GoString) (h : [a, b] ∈ spaceEncodings) :
    endsWithSpace (b :: a :: r).reverse = true := by
  have := endsWithSpace_enc [a, b] h r.reverse
  simpa using this

theorem endsWithSpace_rev_three (a b c : Nat) (r : GoString)
    (h : [a, b, c] ∈ spaceEncodings) :
    endsWithSpace (c :: b :: a :: r).reverse = true := by
  have := endsWithSpace_enc [a, b, c] h r.reverse
  simpa using this

theorem endsWithSpace_rev_ascii (b : Nat) (r : GoString) (hb : isAsciiSpace b = true) :
    endsWithSpace (b :: r).reverse = true := by
  simp only [isAsciiSpace, Bool.or_eq_true, beq_iff_eq] at hb
  rcases hb with ((((rfl | rfl) | rfl) | rfl) | rfl) | rfl <;>
    exact endsWithSpace_rev_one _ r (by decide)

theorem trimLeftRev_one (b : Nat) (r : GoString) (h : isAsciiSpace b = true) :
    trimLeftRev (b :: r) = trimLeftRev r := by
  rw [trimLeftRev.eq_def]
  simp [h]

theorem trimLeftRev_two (b b1 : Nat) (r : GoString) (h1 : isAsciiSpace b = false)
    (h2 : isSpaceTwo b1 b = true) : trimLeftRev (b :: b1 :: r) = trimLeftRev r := by
  rw [trimLeftRev.eq_def]
  simp [h1, h2]

theorem trimLeftRev_three (b b1 b2 : Nat) (r : GoString) (h1 : isAsciiSpace b = false)
    (h2 : isSpaceTwo b1 b = false) (h3 : isSpaceThree b2 b1 b = true) :
    trimLeftRev (b :: b1 :: b2 :: r) = trimLeftRev r := by
  rw [trimLeftRev.eq_def]
  simp [h1, h2, h3]

theorem trimLeftRev_enc (e : GoString) (he : e ∈ spaceEncodings) (r : GoString) :
    trimLeftRev (e.reverse ++ r) = trimLeftRev r := by
  simp only [spaceEncodings, List.mem_cons, List.mem_singleton, List.not_mem_nil, or_false] at he
  rcases he with rfl | rfl | rfl | rfl | rfl | rfl | rfl | rfl | rfl | rfl | rfl | rfl | rfl |
    rfl | rfl | rfl | rfl | rfl | rfl | rfl | rfl | rfl | rfl | rfl | rfl <;>
    first
    | exact trimLeftRev_one _ r (by decide)
    | exact trimLeftRev_two _ _ r (by decide) (by decide)
    | exact trimLeftRev_three _ _ _ r (by decide) (by decide) (by decide)

theorem mem_spaceEncodings_two (a b : Nat) (h : isSpaceTwo a b = true) :
    [a, b] ∈ spaceEncodings := by
  simp only [isSpaceTwo, Bool.and_eq_true, Bool.or_eq_true, beq_iff_eq] at h
  obtain ⟨rfl, rfl | rfl⟩ := h <;> decide

theorem mem_spaceEncodings_three (a b c : Nat) (h : isSpaceThree a b c = true) :
    [a, b, c] ∈ spaceEncodings := by
  simp only [isSpaceThree, Bool.and_eq_true, Bool.or_eq_true, beq_iff_eq,
    decide_eq_true_eq] at h
  rcases h with ((⟨⟨rfl, rfl⟩, rfl⟩ | ⟨⟨rfl, rfl⟩, hc⟩) | ⟨⟨rfl, rfl⟩, rfl⟩) | ⟨⟨rfl, rfl⟩, rfl⟩
  · decide
  · apply mem_spaceEncodings_e2
    rcases hc with ((h | h) | h) | h
    · exact Or.inl h
    · exact Or.inr (Or.inl h)
    · exact Or.inr (Or.inr (Or.inl h))
    · exact Or.inr (Or.inr (Or.inr h))
  · decide
  · decide

theorem trimLeftRev_stop (s : GoString) (h : endsWithSpace s.reverse = false) :
    trimLeftRev s = s := by
  unfold trimLeftRev
  split
  · rfl
  · rename_i b rest
    split
    · rename_i hb
      rw [endsWithSpace_rev_ascii b rest hb] at h; cases h
    · split
      · rfl
      · rename_i b1 r1
        split
        · rename_i h2
          rw [endsWithSpace_rev_two _ _ _ (mem_spaceEncodings_two _ _ h2)] at h; cases h
        · split
          · rfl
          · rename_i b2 r2
            split
            · rename_i h3
              rw [endsWithSpace_rev_three _ _ _ _ (mem_spaceEncodings_three _ _ _ h3)] at h
              cases h
            · rfl

theorem isSpaces_snoc (x e : GoString) (he : e ∈ spaceEncodings) (hx : IsSpaces x) :
    IsSpaces (x ++ e) := by
  obtain ⟨es, hes, rfl⟩ := hx
  refine ⟨es ++ [e], ?_, by simp⟩
  intro y hy
  rcases List.mem_append.1 hy with h | h
  · exact hes y h
  · rw [List.mem_singleton.1 h]; exact he

theorem trimLeftRev_spec_aux (n : Nat) : ∀ s : GoString, s.length ≤ n →
    ∃ post, s = post.reverse ++ trimLeftRev s ∧ IsSpaces post ∧
      endsWithSpace (trimLeftRev s).reverse = false := by
  induction n with
  | zero =>
    intro s hs
    have : s = [] := List.length_eq_zero.1 (by omega)
    subst this
    exact ⟨[], by simp [trimLeftRev], isSpaces_nil, by decide⟩
  | succ n ih =>
    intro s hs
    cases hst : endsWithSpace s.reverse
    · rw [trimLeftRev_stop s hst]
      exact ⟨[], by simp, isSpaces_nil, hst⟩
    · obtain ⟨e, he, r, hr⟩ := (endsWithSpace_iff _).1 hst
      have hs' : s = e.reverse ++ r.reverse := by
        have := congrArg List.reverse hr
        simpa using this.symm
      subst hs'
      rw [trimLeftRev_enc e he]
      have hpos := enc_length_pos e he
      obtain ⟨post, hpost, hsp, hstop⟩ := ih r.reverse (by simp at hs ⊢; omega)
      refine ⟨post ++ e, ?_, isSpaces_snoc post e he hsp, hstop⟩
      rw [List.reverse_append, List.append_assoc, ← hpost]

theorem TrimSpace_isTrimOf (s : GoString) : IsTrimOf (TrimSpace s) s := by
  obtain ⟨pre, hpre, hpresp, hstart⟩ := trimLeft_spec s
  obtain ⟨post, hpost, hpostsp, hend⟩ :=
    trimLeftRev_spec_aux _ (trimLeft s).reverse (le_refl _)
  have ht : trimLeft s = TrimSpace s ++ post := by
    have := congrArg List.reverse hpost
    simpa [TrimSpace] using this
  refine ⟨pre, post, ?_, hpresp, hpostsp, ?_, hend⟩
  · rw [List.append_assoc, ← ht]; exact hpre
  · cases hsw : startsWithSpace (TrimSpace s)
    · rfl
    · obtain ⟨e, he, hp⟩ := (startsWithSpace_iff _).1 hsw
      have : startsWithSpace (trimLeft s) = true :=
        (startsWithSpace_iff _).2 ⟨e, he, ht ▸ hp.trans (List.prefix_append _ _)⟩
      rw [hstart] at this
      cases this

theorem trimLeft_spaces (pre : GoString) (h : IsSpaces pre) (x : GoString) :
    trimLeft (pre ++ x) = trimLeft x := by
  obtain ⟨es, hes, rfl⟩ := h
  induction es with
  | nil => simp
  | cons e es ih =>
    rw [List.flatten_cons, List.append_assoc, trimLeft_enc e (hes e (List.mem_cons_self _ _))]
    exact ih (fun e' he' => hes e' (List.mem_cons_of_mem _ he'))

theorem trimLeftRev_spaces (post : GoString) (h : IsSpaces post) (x : GoString) :
    trimLeftRev (post.reverse ++ x) = trimLeftRev x := by
  obtain ⟨es, hes, rfl⟩ := h
  induction es generalizing x with
  | nil => simp
  | cons e es ih =>
    rw [List.flatten_cons, List.reverse_append, List.append_assoc,
      ih _ (fun e' he' => hes e' (List.mem_cons_of_mem _ he'))]
    exact trimLeftRev_enc e (hes e (List.mem_cons_self _ _)) x

/-- No white-space encoding continues with the first byte of another: the
bytes after the first are continuation bytes. -/
theorem enc_tail_head : ∀ e ∈ spaceEncodings, ∀ b ∈ e.tail,
    ∀ e' ∈ spaceEncodings, e'.head? ≠ some b := by
  decide

theorem isSpaces_head (post : GoString) (h : IsSpaces post) (hne : post ≠ []) :
    ∃ e ∈ spaceEncodings, post.head? = e.head? := by
  obtain ⟨es, hes, rfl⟩ := h
  induction es with
  | nil => simp at hne
  | cons e es ih =>
    have he := hes e (List.mem_cons_self _ _)
    have hpos := enc_length_pos e he
    refine ⟨e, he, ?_⟩
    cases e with
    | nil => simp at hpos
    | cons a r => simp

theorem startsWithSpace_append (t post : GoString) (ht : t ≠ [])
    (hstart : startsWithSpace t = false) (hpost : IsSpaces post) :
    startsWithSpace (t ++ post) = false := by
  cases hsw : startsWithSpace (t ++ post)
  · rfl
  · exfalso
    obtain ⟨e, he, hp⟩ := (startsWithSpace_iff _).1 hsw
    by_cases hle : e.length ≤ t.length
    · have : e <+: t := List.prefix_of_prefix_length_le hp (List.prefix_append t post) hle
      have : startsWithSpace t = true := (startsWithSpace_iff _).2 ⟨e, he, this⟩
      rw [hstart] at this
      cases this
    · have hte : t <+: e :=
        List.prefix_of_prefix_length_le (List.prefix_append t post) hp (by omega)
      obtain ⟨u, hu⟩ := hte
      obtain ⟨v, hv⟩ := hp
      have hpu : post = u ++ v := by
        rw [← hu, List.append_assoc] at hv
        exact (List.append_cancel_left hv).symm
      have hulen : 0 < u.length := by
        have := congrArg List.length hu
        simp at this
        omega
      cases u with
      | nil => simp at hulen
      | cons a r =>
        obtain ⟨e', he', hh⟩ := isSpaces_head post hpost (by rw [hpu]; simp)
        have hmem : a ∈ e.tail := by
          rw [← hu]
          cases t with
          | nil => exact absurd rfl ht
          | cons c t' => simp
        refine enc_tail_head e he a hmem e' he' ?_
        rw [← hh, hpu]
        rfl

theorem IsTrimOf_unique (t s : GoString) (h : IsTrimOf t s) : t = TrimSpace s := by
  obtain ⟨pre, post, hs, hpre, hpost, hstart, hend⟩ := h
  subst hs
  unfold TrimSpace
  rw [List.append_assoc, trimLeft_spaces pre hpre]
  by_cases ht : t = []
  · subst ht
    have := trimLeft_spaces post hpost []
    simp only [List.append_nil] at this
    simp [this, trimLeft, trimLeftRev]
  · rw [trimLeft_stop _ (startsWithSpace_append t post ht hstart hpost), List.reverse_append,
      trimLeftRev_spaces post hpost,
      trimLeftRev_stop _ (by rw [List.reverse_reverse]; exact hend), List.reverse_reverse]

theorem isTrimOf_iff (t s : GoString) : IsTrimOf t s ↔ t = TrimSpace s :=
  ⟨IsTrimOf_unique t s, fun h => h ▸ TrimSpace_isTrimOf s⟩

theorem forall₂_isTrimOf (L X : List GoString) (h : List.Forall₂ IsTrimOf L X) :
    L = X.map TrimSpace := by
  induction h with
  | nil => rfl
  | cons hax _ ih => rw [List.map_cons, ← ih, ← IsTrimOf_unique _ _ hax]

theorem forall₂_map_TrimSpace (X : List GoString) :
    List.Forall₂ IsTrimOf (X.map TrimSpace) X := by
  induction X with
  | nil => exact List.Forall₂.nil
  | cons x r ih => exact List.Forall₂.cons (TrimSpace_isTrimOf x) ih

/-! ## Lines -/

theorem firstLine_append_afterLine (s : GoString) : firstLine s ++ afterLine s = s :=
  List.takeWhile_append_dropWhile _ s

theorem afterLine_cases (s : GoString) :
    afterLine s = [] ∨ ∃ rest, afterLine s = NL :: rest := by
  unfold afterLine
  induction s with
  | nil => simp
  | cons b t ih =>
    by_cases hb : b = NL
    · right; exact ⟨t, by simp [hb]⟩
    · simpa [List.dropWhile_cons, hb] using ih

theorem Split_eq (s : GoString) :
    Split s = firstLine s ::
      (match afterLine s with
       | [] => []
       | _ :: rest => Split rest) := by
  induction s with
  | nil => simp [Split, firstLine, afterLine]
  | cons b t ih =>
    by_cases hb : b = NL
    · simp [Split, firstLine, afterLine, hb]
    · rw [Split, if_neg hb, ih]
      simp [firstLine, afterLine, List.takeWhile_cons, List.dropWhile_cons, hb]

/-! ## The prev/next loop -/

theorem setPrev_length (L : List Post) (i : Nat) (l : PostLink) : (setPrev L i l).length = L.length := by
  unfold setPrev; split <;> simp

theorem setNext_length (L : List Post) (i : Nat) (l : PostLink) : (setNext L i l).length = L.length := by
  unfold setNext; split <;> simp

theorem setPrev_getElem? (L : List Post) (i j : Nat) (l : PostLink) :
    (setPrev L i l)[j]? = if j = i then L[i]?.map (fun p => { p with Prev := some l }) else L[j]? := by
  unfold setPrev
  split
  · rename_i p hp
    by_cases hji : j = i
    · subst hji
      have hlt : j < L.length := by
        by_contra hc
        rw [List.getElem?_eq_none (by omega)] at hp
        cases hp
      simp [hp, List.getElem?_set, hlt]
    · simp [hji, List.getElem?_set, Ne.symm hji]
  · rename_i hp
    by_cases hji : j = i
    · subst hji; simp [hp]
    · simp [hji]

theorem setNext_getElem? (L : List Post) (i j : Nat) (l : PostLink) :
    (setNext L i l)[j]? = if j = i then L[i]?.map (fun p => { p with Next := some l }) else L[j]? := by
  unfold setNext
  split
  · rename_i p hp
    by_cases hji : j = i
    · subst hji
      have hlt : j < L.length := by
        by_contra hc
        rw [List.getElem?_eq_none (by omega)] at hp
        cases hp
      simp [hp, List.getElem?_set, hlt]
    · simp [hji, List.getElem?_set, Ne.symm hji]
  · rename_i hp
    by_cases hji : j = i
    · subst hji; simp [hp]
    · simp [hji]

theorem wiredUpTo_spec (ps : List Post) (k : Nat) (hk : k ≤ ps.length) :
    (wiredUpTo ps k).length = ps.length ∧
    ∀ j, (wiredUpTo ps k)[j]? = ps[j]?.map (fun p => if j < k then linked ps j p else p) := by
  induction k with
  | zero => simp [wiredUpTo]
  | succ k ih =>
    obtain ⟨hlen, hget⟩ := ih (by omega)
    have hstep : wiredUpTo ps (k + 1) = wireStep (wiredUpTo ps k) k := by
      simp [wiredUpTo, List.range_succ, List.foldl_append]
    rw [hstep]
    generalize wiredUpTo ps k = L at hlen hget
    have hk' : k < ps.length := by omega
    obtain ⟨pk, hpk⟩ : ∃ p, ps[k]? = some p := ⟨ps[k], by simp [hk']⟩
    -- first assignment
    have h1 : ∃ L1 : List Post, L1.length = ps.length ∧
        (∀ j, L1[j]? = if j = k then some { pk with Prev := if 0 < k then ps[k - 1]?.map linkOf else pk.Prev } else L[j]?) ∧
        wireStep L k = (if k + 1 < L1.length then
            match L1[k + 1]? with
            | some q => setNext L1 k ⟨q.Slug, q.Title⟩
            | none => L1
          else L1) := by
      by_cases h0 : 0 < k
      · obtain ⟨q, hq⟩ : ∃ q, ps[k - 1]? = some q := ⟨ps[k-1], by simp⟩
        have hLq : L[k - 1]? = some (linked ps (k - 1) q) := by
          rw [hget, hq]; simp; omega
        refine ⟨setPrev L k ⟨q.Slug, q.Title⟩, by rw [setPrev_length, hlen], ?_, ?_⟩
        · intro j
          rw [setPrev_getElem?]
          by_cases hjk : j = k
          · subst hjk
            simp [hget, hpk, h0, hq, linkOf]
          · simp [hjk]
        · simp only [wireStep, h0, if_true, hLq, linked]
      · refine ⟨L, hlen, ?_, ?_⟩
        · intro j
          by_cases hjk : j = k
          · subst hjk; simp [hget, hpk, h0]
          · simp [hjk]
        · simp only [wireStep, h0, if_false]
    obtain ⟨L1, hlen1, hget1, hw⟩ := h1
    rw [hw]
    by_cases hn : k + 1 < ps.length
    · obtain ⟨q, hq⟩ : ∃ q, ps[k + 1]? = some q := ⟨ps[k+1], by simp [hn]⟩
      have hL1q : L1[k + 1]? = some q := by
        rw [hget1, if_neg (by omega), hget, hq]; simp
      rw [hlen1, if_pos hn, hL1q]
      simp only
      refine ⟨by rw [setNext_length, hlen1], ?_⟩
      intro j
      rw [setNext_getElem?]
      by_cases hjk : j = k
      · subst hjk
        simp [hget1, hpk, linked, hn, hq, linkOf]
      · rw [if_neg hjk, hget1, if_neg hjk, hget]
        congr 1
        funext p
        by_cases hjlt : j < k
        · simp [hjlt, Nat.lt_succ_of_lt hjlt]
        · have : ¬ j < k + 1 := by omega
          simp [hjlt, this]
    · rw [hlen1, if_neg hn]
      refine ⟨hlen1, ?_⟩
      intro j
      by_cases hjk : j = k
      · subst hjk
        simp [hget1, hpk, linked, hn]
      · rw [hget1, if_neg hjk, hget]
        congr 1
        funext p
        by_cases hjlt : j < k
        · simp [hjlt, Nat.lt_succ_of_lt hjlt]
        · have : ¬ j < k + 1 := by omega
          simp [hjlt, this]

theorem wire_getElem? (ps : List Post) (j : Nat) :
    (wire ps)[j]? = ps[j]?.map (linked ps j) := by
  have h := (wiredUpTo_spec ps ps.length (le_refl _)).2 j
  unfold wire
  unfold wiredUpTo at h
  rw [h]
  by_cases hj : j < ps.length
  · simp [hj]
  · rw [List.getElem?_eq_none (by omega)]; simp


/-! ## Dates -/

theorem Date.After_iff (a b : Date) :
    a.After b = true ↔
      b.year < a.year ∨ (a.year = b.year ∧
        (b.month < a.month ∨ (a.month = b.month ∧ b.day < a.day))) := by
  simp [Date.After]

theorem Date.After_eq_false_iff (a b : Date) :
    a.After b = false ↔
      ¬ (b.year < a.year ∨ (a.year = b.year ∧
        (b.month < a.month ∨ (a.month = b.month ∧ b.day < a.day)))) := by
  rw [← Date.After_iff, Bool.not_eq_true]

theorem strictWeak_newerFirst : StrictWeak newerFirst where
  irrefl a := by
    simp only [newerFirst, Date.After_eq_false_iff]; omega
  trans a b c := by
    simp only [newerFirst, Date.After_iff]; omega
  incomp a b c := by
    simp only [newerFirst, Date.After_eq_false_iff]; omega

/-! ## The loop over the files -/

theorem buildLoop_ok (dir : List SourceFile) (convert : GoString → Option GoString)
    (files : List GoString) (acc posts : List Post)
    (h : buildLoop dir convert files acc = .ok posts) :
    posts = acc ++ files.filterMap (postOf dir convert) ∧
      ∀ b ∈ files, postFile b ≠ none → postOf dir convert b ≠ none := by
  induction files generalizing acc with
  | nil =>
    simp only [buildLoop, Except.ok.injEq] at h
    simp [h]
  | cons base rest ih =>
    rw [buildLoop] at h
    cases hm : postFile base with
    | none =>
      simp only [hm] at h
      obtain ⟨h1, h2⟩ := ih acc h
      refine ⟨?_, ?_⟩
      · rw [h1, List.filterMap_cons]
        simp [postOf, hm]
      · intro b hb hne
        rcases List.mem_cons.1 hb with rfl | hb
        · exact absurd hm hne
        · exact h2 b hb hne
    | some m =>
      simp only [hm] at h
      cases hd : parseDate m.1 with
      | none => simp only [hd] at h; cases h
      | some date =>
        simp only [hd] at h
        cases hr : readFile dir base with
        | none => simp only [hr] at h; cases h
        | some text =>
          simp only [hr] at h
          cases hc : convert (stripFirstParagraph (stripFirstH1 text)) with
          | none => simp only [hc] at h; cases h
          | some html =>
            simp only [hc] at h
            obtain ⟨h1, h2⟩ := ih _ h
            have hp : postOf dir convert base =
                some ⟨TrimSuffix base dotMd, extractTitle text, extractDesc text, date,
                  html, none, none⟩ := by
              simp [postOf, hm, hd, hr, hc]
            refine ⟨?_, ?_⟩
            · rw [h1, List.filterMap_cons, hp]
              simp
            · intro b hb hne
              rcases List.mem_cons.1 hb with rfl | hb
              · rw [hp]; simp
              · exact h2 b hb hne

theorem buildLoop_error (dir : List SourceFile) (convert : GoString → Option GoString)
    (files : List GoString) (acc : List Post) (e : BuildError)
    (h : buildLoop dir convert files acc = .error e) :
    ∃ b ∈ files, ∃ m, postFile b = some m ∧
      (parseDate m.1 = none ∨ readFile dir b = none ∨
        ∃ text, readFile dir b = some text ∧
          convert (stripFirstParagraph (stripFirstH1 text)) = none) := by
  induction files generalizing acc with
  | nil => simp [buildLoop] at h
  | cons base rest ih =>
    rw [buildLoop] at h
    cases hm : postFile base with
    | none =>
      simp only [hm] at h
      obtain ⟨b, hb, r⟩ := ih acc h
      exact ⟨b, List.mem_cons_of_mem _ hb, r⟩
    | some m =>
      simp only [hm] at h
      cases hd : parseDate m.1 with
      | none => exact ⟨base, List.mem_cons_self _ _, m, hm, Or.inl hd⟩
      | some date =>
        simp only [hd] at h
        cases hr : readFile dir base with
        | none => exact ⟨base, List.mem_cons_self _ _, m, hm, Or.inr (Or.inl hr)⟩
        | some text =>
          simp only [hr] at h
          cases hc : convert (stripFirstParagraph (stripFirstH1 text)) with
          | none =>
            exact ⟨base, List.mem_cons_self _ _, m, hm, Or.inr (Or.inr ⟨text, hr, hc⟩)⟩
          | some html =>
            simp only [hc] at h
            obtain ⟨b, hb, r⟩ := ih _ h
            exact ⟨b, List.mem_cons_of_mem _ hb, r⟩

theorem buildLoop_bad_date (dir : List SourceFile) (convert : GoString → Option GoString)
    (files : List GoString) (acc : List Post) (b : GoString) (hb : b ∈ files)
    (m : GoString × GoString) (hm : postFile b = some m) (hd : parseDate m.1 = none) :
    ∃ e, buildLoop dir convert files acc = .error e := by
  induction files generalizing acc with
  | nil => cases hb
  | cons base rest ih =>
    rw [buildLoop]
    rcases List.mem_cons.1 hb with rfl | hb
    · simp only [hm, hd]; exact ⟨_, rfl⟩
    · cases hm' : postFile base with
      | none => simp only []; exact ih acc hb
      | some m' =>
        simp only []
        cases hd' : parseDate m'.1 with
        | none => exact ⟨_, rfl⟩
        | some date =>
          simp only []
          cases hr' : readFile dir base with
          | none => exact ⟨_, rfl⟩
          | some text =>
            simp only []
            cases hc : convert (stripFirstParagraph (stripFirstH1 text)) with
            | none => exact ⟨_, rfl⟩
            | some html => exact ih _ hb

/-! ## The build -/

theorem run_ok (S : SliceSorter) (out : OutputSide) (dir : List SourceFile)
    (convert : GoString → Option GoString) (site : Site)
    (h : run S out dir convert = .ok site) :
    discovered dir ≠ [] ∧ ∃ posts, buildLoop dir convert (discovered dir) [] = .ok posts ∧
      site.posts = wire (S.sort newerFirst posts) ∧
      site.written = outputFiles site.posts := by
  unfold run at h
  simp only [] at h
  split at h
  · cases h
  · split at h
    · cases h
    · split at h
      · cases h
      · rename_i hne
        refine ⟨fun h0 => hne (by
          rw [show sortStrings _ = discovered dir from rfl, h0]; rfl), ?_⟩
        split at h
        · cases h
        · rename_i posts hp
          refine ⟨posts, hp, ?_⟩
          split at h
          · cases h
          · split at h
            · cases h
            · split at h
              · cases h
              · split at h
                · cases h
                · simp only [BuildResult.ok.injEq] at h
                  subst h
                  exact ⟨rfl, rfl⟩

theorem outputOk_succeeds : outputOk.Succeeds :=
  ⟨rfl, rfl, rfl, fun _ => rfl, fun _ => rfl, fun _ _ => rfl⟩

theorem renderPosts_succeeds (out : OutputSide) (hout : out.Succeeds) (all ps : List Post) :
    renderPosts out all ps = none := by
  induction ps with
  | nil => rfl
  | cons p rest ih =>
    simp only [renderPosts, hout.2.2.2.1, hout.2.2.2.2.2, if_true, ih]

theorem wire_length (ps : List Post) : (wire ps).length = ps.length :=
  (wiredUpTo_spec ps ps.length (le_refl _)).1

theorem wire_map_date (ps : List Post) : (wire ps).map Post.Date = ps.map Post.Date := by
  apply List.ext_getElem?
  intro j
  simp only [List.getElem?_map, wire_getElem?, Option.map_map]
  cases ps[j]? <;> simp [linked]

theorem wire_map_slug (ps : List Post) : (wire ps).map Post.Slug = ps.map Post.Slug := by
  apply List.ext_getElem?
  intro j
  simp only [List.getElem?_map, wire_getElem?, Option.map_map]
  cases ps[j]? <;> simp [linked]

theorem run_twoPosts : run insertionSorter outputOk twoPosts echoConvert = .ok twoPostsSite := by
  decide

theorem postOf_links (dir : List SourceFile) (convert : GoString → Option GoString)
    (b : GoString) (p : Post) (h : postOf dir convert b = some p) :
    p.Prev = none ∧ p.Next = none ∧ p.Slug = TrimSuffix b dotMd ∧
      ∃ m, postFile b = some m ∧ parseDate m.1 = some p.Date := by
  unfold postOf at h
  split at h
  · cases h
  · rename_i m hm
    split at h
    · rename_i date text hd hr
      cases hc : convert (stripFirstParagraph (stripFirstH1 text)) with
      | none => rw [hc] at h; cases h
      | some html =>
        rw [hc] at h
        simp only [Option.map_some', Option.some.injEq] at h
        subst h
        exact ⟨rfl, rfl, rfl, m, hm, hd⟩
    · cases h

theorem wire_getElem (ps : List Post) (i : Nat) (hi : i < (wire ps).length)
    (hi' : i < ps.length) : (wire ps)[i] = linked ps i ps[i] := by
  have h := wire_getElem? ps i
  rw [List.getElem?_eq_getElem hi, List.getElem?_eq_getElem hi'] at h
  simpa using h

theorem wire_links (ps : List Post) (hnone : ∀ p ∈ ps, p.Prev = none ∧ p.Next = none)
    (i : Nat) (hi : i < (wire ps).length) :
    (i = 0 → ((wire ps)[i]).Prev = none) ∧
    (∀ h0 : 0 < i, ((wire ps)[i]).Prev =
      some ⟨((wire ps)[i - 1]).Slug, ((wire ps)[i - 1]).Title⟩) ∧
    (i + 1 = (wire ps).length → ((wire ps)[i]).Next = none) ∧
    (∀ h1 : i + 1 < (wire ps).length, ((wire ps)[i]).Next =
      some ⟨((wire ps)[i + 1]).Slug, ((wire ps)[i + 1]).Title⟩) := by
  have hlen := wire_length ps
  have hi' : i < ps.length := by omega
  have hn := hnone _ (List.getElem_mem hi')
  refine ⟨?_, ?_, ?_, ?_⟩
  · intro h0
    rw [wire_getElem ps i hi hi']
    have h00 : ¬ 0 < i := by omega
    simp only [linked, h00, if_false]
    exact hn.1
  · intro h0
    have h2 : i - 1 < ps.length := by omega
    rw [wire_getElem ps i hi hi', wire_getElem ps (i - 1) (by omega) h2]
    simp [linked, h0, List.getElem?_eq_getElem h2, linkOf]
  · intro h1
    rw [wire_getElem ps i hi hi']
    have : ¬ i + 1 < ps.length := by omega
    simp [linked, this, hn.2]
  · intro h1
    have h2 : i + 1 < ps.length := by omega
    rw [wire_getElem ps i hi hi', wire_getElem ps (i + 1) (by omega) h2]
    simp [linked, h2, List.getElem?_eq_getElem h2, linkOf]

theorem run_posts_unlinked (S : SliceSorter) (dir : List SourceFile)
    (convert : GoString → Option GoString) (posts : List Post)
    (hp : buildLoop dir convert (discovered dir) [] = .ok posts) :
    ∀ p ∈ S.sort newerFirst posts, p.Prev = none ∧ p.Next = none := by
  intro p hpm
  have hmem : p ∈ posts := (S.perm newerFirst posts).mem_iff.1 hpm
  rw [(buildLoop_ok dir convert _ [] posts hp).1] at hmem
  simp only [List.nil_append, List.mem_filterMap] at hmem
  obtain ⟨b, _, hb⟩ := hmem
  have := postOf_links dir convert b p hb
  exact ⟨this.1, this.2.1⟩

/-- C1: whenever the build succeeds, the collection handed to the renderer is
ordered newest first: for every adjacent pair `posts[i]`, `posts[i+1]` the
date of `posts[i]` is not earlier than the date of `posts[i+1]` (the later
post's date is not after the earlier one's); the same holds for every pair
`i < j`. -/
theorem run_posts_newest_first (S : SliceSorter) (out : OutputSide) (dir : List SourceFile)
    (convert : GoString → Option GoString) (site : Site)
    (h : run S out dir convert = .ok site) :
    (∀ i (hi : i + 1 < site.posts.length),
      (site.posts[i + 1]).Date.After (site.posts[i]).Date = false) ∧
    site.posts.Pairwise (fun a b => b.Date.After a.Date = false) := by
  obtain ⟨_, posts, _, hs, _⟩ := run_ok S out dir convert site h
  have hpw : site.posts.Pairwise (fun a b => b.Date.After a.Date = false) := by
    have h1 := S.sorted newerFirst posts strictWeak_newerFirst
    have h2 : ((S.sort newerFirst posts).map Post.Date).Pairwise
        (fun x y => y.After x = false) := by
      rw [List.pairwise_map]; exact h1
    rw [← wire_map_date, ← hs, List.pairwise_map] at h2
    exact h2
  refine ⟨?_, hpw⟩
  intro i hi
  exact (List.pairwise_iff_getElem.1 hpw) i (i + 1) (by omega) hi (by omega)

/-- Witness of C1 on the two-post example: the build succeeds and its
collection is ordered newest first. -/
theorem run_posts_newest_first_witness :
    run insertionSorter outputOk twoPosts echoConvert = .ok twoPostsSite ∧
    ((∀ i (hi : i + 1 < twoPostsSite.posts.length),
      (twoPostsSite.posts[i + 1]).Date.After (twoPostsSite.posts[i]).Date = false) ∧
    twoPostsSite.posts.Pairwise (fun a b => b.Date.After a.Date = false)) :=
  ⟨run_twoPosts, run_posts_newest_first insertionSorter outputOk twoPosts echoConvert twoPostsSite
    run_twoPosts⟩

/-- C2: whenever the build succeeds, for every index `i` of the final
collection `posts[i].Prev` is absent when `i = 0` and is otherwise the slug
and title of `posts[i-1]`, and `posts[i].Next` is absent at the last index and
is otherwise the slug and title of `posts[i+1]`. -/
theorem run_prev_next (S : SliceSorter) (out : OutputSide) (dir : List SourceFile)
    (convert : GoString → Option GoString) (site : Site)
    (h : run S out dir convert = .ok site) :
    ∀ i (hi : i < site.posts.length),
      (i = 0 → (site.posts[i]).Prev = none) ∧
      (∀ h0 : 0 < i, (site.posts[i]).Prev =
        some ⟨(site.posts[i - 1]).Slug, (site.posts[i - 1]).Title⟩) ∧
      (i + 1 = site.posts.length → (site.posts[i]).Next = none) ∧
      (∀ h1 : i + 1 < site.posts.length, (site.posts[i]).Next =
        some ⟨(site.posts[i + 1]).Slug, (site.posts[i + 1]).Title⟩) := by
  obtain ⟨_, posts, hp, hs, _⟩ := run_ok S out dir convert site h
  have hnone := run_posts_unlinked S dir convert posts hp
  intro i hi
  have key := wire_links (S.sort newerFirst posts) hnone i (by rw [← hs]; exact hi)
  obtain ⟨sp, sw⟩ := site
  simp only at hs
  subst hs
  exact key

/-- Witness of C2, the end-to-end example: `2024-01-01-a.md` and
`2024-02-01-b.md` give the order `[2024-02-01-b, 2024-01-01-a]`; `b.Next` is
`(2024-01-01-a, A)`, `a.Prev` is `(2024-02-01-b, B)`, `b.Prev` and `a.Next`
are absent; and the general statement holds at this build. -/
theorem run_prev_next_witness :
    run insertionSorter outputOk twoPosts echoConvert = .ok twoPostsSite ∧
    twoPostsSite.posts.map Post.Slug = [lit "2024-02-01-b", lit "2024-01-01-a"] ∧
    twoPostsSite.posts.map Post.Next = [some ⟨lit "2024-01-01-a", lit "A"⟩, none] ∧
    twoPostsSite.posts.map Post.Prev = [none, some ⟨lit "2024-02-01-b", lit "B"⟩] ∧
    (∀ i (hi : i < twoPostsSite.posts.length),
      (i = 0 → (twoPostsSite.posts[i]).Prev = none) ∧
      (∀ h0 : 0 < i, (twoPostsSite.posts[i]).Prev =
        some ⟨(twoPostsSite.posts[i - 1]).Slug, (twoPostsSite.posts[i - 1]).Title⟩) ∧
      (i + 1 = twoPostsSite.posts.length → (twoPostsSite.posts[i]).Next = none) ∧
      (∀ h1 : i + 1 < twoPostsSite.posts.length, (twoPostsSite.posts[i]).Next =
        some ⟨(twoPostsSite.posts[i + 1]).Slug, (twoPostsSite.posts[i + 1]).Title⟩)) :=
  ⟨run_twoPosts, by decide, by decide, by decide,
    run_prev_next insertionSorter outputOk twoPosts echoConvert twoPostsSite run_twoPosts⟩

/-! ## File names -/

theorem parseDate_digits (y1 y2 y3 y4 m1 m2 d1 d2 : Nat)
    (hy1 : isDigit y1 = true) (hy2 : isDigit y2 = true) (hy3 : isDigit y3 = true)
    (hy4 : isDigit y4 = true) (hm1 : isDigit m1 = true) (hm2 : isDigit m2 = true)
    (hd1 : isDigit d1 = true) (hd2 : isDigit d2 = true) :
    parseDate [y1, y2, y3, y4, HYPHEN, m1, m2, HYPHEN, d1, d2] =
      (if realDate (digitVal y1 * 1000 + digitVal y2 * 100 + digitVal y3 * 10 + digitVal y4)
          (digitVal m1 * 10 + digitVal m2) (digitVal d1 * 10 + digitVal d2) = true then
        some ⟨digitVal y1 * 1000 + digitVal y2 * 100 + digitVal y3 * 10 + digitVal y4,
          digitVal m1 * 10 + digitVal m2, digitVal d1 * 10 + digitVal d2⟩
      else none) := by
  simp only [parseDate, hy1, hy2, hy3, hy4, hm1, hm2, hd1, hd2, Bool.and_self,
    beq_self_eq_true, if_true, realDate]
  generalize digitVal y1 * 1000 + digitVal y2 * 100 + digitVal y3 * 10 + digitVal y4 = Y
  generalize digitVal m1 * 10 + digitVal m2 = M
  generalize digitVal d1 * 10 + digitVal d2 = D
  by_cases hmo : M ≤ 0 ∨ 12 < M
  · rw [if_pos hmo, if_neg]
    simp only [decide_eq_true_eq]; omega
  · rw [if_neg hmo]
    by_cases hd : D < 1 ∨ D > daysIn M Y
    · rw [if_pos hd, if_neg]
      simp only [decide_eq_true_eq]; omega
    · rw [if_neg hd, if_pos]
      simp only [decide_eq_true_eq]; omega

theorem take_of_dotMd_suffix (rest : GoString) (h : dotMd.isSuffixOf rest = true) :
    rest = rest.take (rest.length - 3) ++ dotMd := by
  have hsuf : dotMd <:+ rest := by simpa using h
  obtain ⟨t, ht⟩ := hsuf
  subst ht
  simp [dotMd]

theorem splitDatePrefix_some (b date rest : GoString)
    (h : splitDatePrefix b = some (date, rest)) :
    ∃ y1 y2 y3 y4 m1 m2 d1 d2,
      isDigit y1 = true ∧ isDigit y2 = true ∧ isDigit y3 = true ∧ isDigit y4 = true ∧
      isDigit m1 = true ∧ isDigit m2 = true ∧ isDigit d1 = true ∧ isDigit d2 = true ∧
      date = [y1, y2, y3, y4, HYPHEN, m1, m2, HYPHEN, d1, d2] ∧
      b = date ++ HYPHEN :: rest := by
  unfold splitDatePrefix at h
  split at h
  · rename_i y1 y2 y3 y4 h1 m1 m2 h2 d1 d2 h3 rest'
    split at h
    · rename_i hc
      simp only [Option.some.injEq, Prod.mk.injEq] at h
      obtain ⟨rfl, rfl⟩ := h
      simp only [Bool.and_eq_true, beq_iff_eq] at hc
      obtain ⟨⟨⟨⟨⟨⟨⟨⟨⟨⟨a1, a2⟩, a3⟩, a4⟩, a5⟩, a6⟩, a7⟩, a8⟩, a9⟩, a10⟩, a11⟩ := hc
      subst a5 a8 a11
      exact ⟨y1, y2, y3, y4, m1, m2, d1, d2, a1, a2, a3, a4, a6, a7, a9, a10, rfl, rfl⟩
    · cases h
  · cases h

theorem splitDatePrefix_digits (y1 y2 y3 y4 m1 m2 d1 d2 : Nat) (rest : GoString)
    (hy1 : isDigit y1 = true) (hy2 : isDigit y2 = true) (hy3 : isDigit y3 = true)
    (hy4 : isDigit y4 = true) (hm1 : isDigit m1 = true) (hm2 : isDigit m2 = true)
    (hd1 : isDigit d1 = true) (hd2 : isDigit d2 = true) :
    splitDatePrefix
        (y1 :: y2 :: y3 :: y4 :: HYPHEN :: m1 :: m2 :: HYPHEN :: d1 :: d2 :: HYPHEN :: rest) =
      some ([y1, y2, y3, y4, HYPHEN, m1, m2, HYPHEN, d1, d2], rest) := by
  simp [splitDatePrefix, hy1, hy2, hy3, hy4, hm1, hm2, hd1, hd2]

theorem nameParts_digits (y1 y2 y3 y4 m1 m2 d1 d2 : Nat) (rest : GoString)
    (hy1 : isDigit y1 = true) (hy2 : isDigit y2 = true) (hy3 : isDigit y3 = true)
    (hy4 : isDigit y4 = true) (hm1 : isDigit m1 = true) (hm2 : isDigit m2 = true)
    (hd1 : isDigit d1 = true) (hd2 : isDigit d2 = true) :
    nameParts
        (y1 :: y2 :: y3 :: y4 :: HYPHEN :: m1 :: m2 :: HYPHEN :: d1 :: d2 :: HYPHEN :: rest) =
      if dotMd.isSuffixOf rest = true then
        some (digitVal y1 * 1000 + digitVal y2 * 100 + digitVal y3 * 10 + digitVal y4,
          digitVal m1 * 10 + digitVal m2, digitVal d1 * 10 + digitVal d2,
          rest.take (rest.length - 3))
      else none := by
  simp [nameParts, hy1, hy2, hy3, hy4, hm1, hm2, hd1, hd2]

theorem nameParts_some (b : GoString) (y mo d : Nat) (frag : GoString)
    (h : nameParts b = some (y, mo, d, frag)) :
    ∃ date rest, splitDatePrefix b = some (date, rest) ∧ dotMd.isSuffixOf rest = true ∧
      frag = rest.take (rest.length - 3) ∧
      parseDate date = (if realDate y mo d = true then some ⟨y, mo, d⟩ else none) := by
  unfold nameParts at h
  split at h
  · rename_i y1 y2 y3 y4 h1 m1 m2 h2 d1 d2 h3 rest'
    split at h
    · rename_i hc
      simp only [Option.some.injEq, Prod.mk.injEq] at h
      obtain ⟨rfl, rfl, rfl, rfl⟩ := h
      simp only [Bool.and_eq_true, beq_iff_eq] at hc
      obtain ⟨⟨⟨⟨⟨⟨⟨⟨⟨⟨⟨a1, a2⟩, a3⟩, a4⟩, a5⟩, a6⟩, a7⟩, a8⟩, a9⟩, a10⟩, a11⟩, a12⟩ := hc
      subst a5 a8 a11
      exact ⟨_, rest', splitDatePrefix_digits _ _ _ _ _ _ _ _ _ a1 a2 a3 a4 a6 a7 a9 a10,
        a12, rfl, parseDate_digits _ _ _ _ _ _ _ _ a1 a2 a3 a4 a6 a7 a9 a10⟩
    · cases h
  · cases h

theorem postFile_spec (b : GoString) (m : GoString × GoString) (h : postFile b = some m) :
    ∃ y mo d, nameParts b = some (y, mo, d, m.2) ∧ m.2 ≠ [] ∧ NL ∉ m.2 ∧
      b = m.1 ++ HYPHEN :: (m.2 ++ dotMd) ∧
      parseDate m.1 = (if realDate y mo d = true then some ⟨y, mo, d⟩ else none) := by
  unfold postFile at h
  split at h
  · rename_i date rest hs
    obtain ⟨y1, y2, y3, y4, m1, m2, d1, d2, a1, a2, a3, a4, a6, a7, a9, a10, hdate, hb⟩ :=
      splitDatePrefix_some b date rest hs
    simp only [] at h
    split at h
    · rename_i hf
      simp only [Option.some.injEq] at h
      subst h
      simp only [Bool.and_eq_true, bne_iff_ne, ne_eq, Bool.not_eq_true',
        List.contains_eq_any_beq, List.any_eq_false, beq_iff_eq] at hf
      obtain ⟨⟨hsuf, hne⟩, hnl⟩ := hf
      refine ⟨digitVal y1 * 1000 + digitVal y2 * 100 + digitVal y3 * 10 + digitVal y4,
          digitVal m1 * 10 + digitVal m2, digitVal d1 * 10 + digitVal d2, ?_, hne, ?_, ?_, ?_⟩
      · rw [hb, hdate]
        simp only [List.cons_append, List.nil_append]
        rw [nameParts_digits _ _ _ _ _ _ _ _ _ a1 a2 a3 a4 a6 a7 a9 a10, if_pos hsuf]
      · intro hmem
        exact hnl NL hmem rfl
      · simp only []
        rw [← take_of_dotMd_suffix rest hsuf]
        exact hb
      · simp only []
        rw [hdate]
        exact parseDate_digits _ _ _ _ _ _ _ _ a1 a2 a3 a4 a6 a7 a9 a10
    · cases h
  · cases h

theorem nameParts_postFile (b : GoString) (y mo d : Nat) (frag : GoString)
    (h : nameParts b = some (y, mo, d, frag)) (hne : frag ≠ []) (hnl : NL ∉ frag) :
    ∃ m, postFile b = some m ∧ m.2 = frag ∧
      parseDate m.1 = (if realDate y mo d = true then some ⟨y, mo, d⟩ else none) := by
  obtain ⟨date, rest, hs, hsuf, hfrag, hp⟩ := nameParts_some b y mo d frag h
  refine ⟨(date, frag), ?_, rfl, hp⟩
  unfold postFile
  rw [hs]
  simp only []
  rw [if_pos]
  · rw [hfrag]
  · rw [← hfrag]
    simp only [Bool.and_eq_true, bne_iff_ne, ne_eq, Bool.not_eq_true',
      List.contains_eq_any_beq, List.any_eq_false, beq_iff_eq]
    refine ⟨⟨hsuf, hne⟩, ?_⟩
    intro x hx hxe
    exact hnl (hxe ▸ hx)

/-! ## Discovery -/

theorem mem_discovered (dir : List SourceFile) (b : GoString) :
    b ∈ discovered dir ↔ ∃ f ∈ dir, f.name = b ∧ globMatch b = true := by
  unfold discovered sortStrings
  rw [(List.perm_insertionSort _ _).mem_iff]
  simp only [List.mem_filter, List.mem_map]
  constructor
  · rintro ⟨⟨f, hf, rfl⟩, hg⟩
    exact ⟨f, hf, rfl, hg⟩
  · rintro ⟨f, hf, rfl, hg⟩
    exact ⟨⟨f, hf, rfl⟩, hg⟩

theorem readFile_of_mem (dir : List SourceFile) (b : GoString)
    (hread : ∀ f ∈ dir, f.content ≠ none) (hb : ∃ f ∈ dir, f.name = b) :
    readFile dir b ≠ none := by
  unfold readFile
  cases hfind : dir.find? (fun f => f.name == b) with
  | none =>
    obtain ⟨f, hf, hfn⟩ := hb
    have := List.find?_eq_none.1 hfind f hf
    simp [hfn] at this
  | some f =>
    simp only []
    exact hread f (List.mem_of_find?_eq_some hfind)

theorem run_error_iff (S : SliceSorter) (out : OutputSide) (dir : List SourceFile)
    (convert : GoString → Option GoString) (hout : out.Succeeds) :
    (∃ e, run S out dir convert = .error e) ↔
      discovered dir = [] ∨ ∃ e, buildLoop dir convert (discovered dir) [] = .error e := by
  unfold run
  simp only [hout.1, hout.2.1, hout.2.2.1, hout.2.2.2.1, hout.2.2.2.2.1, Bool.not_true,
    Bool.false_eq_true, if_false, renderPosts_succeeds out hout]
  rw [show sortStrings ((dir.map fun f => f.name).filter globMatch) = discovered dir from rfl]
  by_cases h0 : (discovered dir).length = 0
  · rw [if_pos h0]
    constructor
    · intro _; exact Or.inl (List.length_eq_zero.1 h0)
    · intro _; exact ⟨_, rfl⟩
  · rw [if_neg h0]
    have hne : discovered dir ≠ [] := fun h => h0 (by rw [h]; rfl)
    cases hb : buildLoop dir convert (discovered dir) [] with
    | error e =>
      simp only []
      constructor
      · intro _; exact Or.inr ⟨e, rfl⟩
      · intro _; exact ⟨e, rfl⟩
    | ok posts =>
      simp only []
      constructor
      · rintro ⟨e, he⟩; cases he
      · rintro (h | ⟨e, he⟩)
        · exact absurd h hne
        · cases he

theorem run_error_of_loop (S : SliceSorter) (out : OutputSide) (dir : List SourceFile)
    (convert : GoString → Option GoString)
    (h : ∃ e, buildLoop dir convert (discovered dir) [] = .error e) :
    ∃ e, run S out dir convert = .error e := by
  obtain ⟨e, he⟩ := h
  unfold run
  simp only []
  rw [show sortStrings ((dir.map fun f => f.name).filter globMatch) = discovered dir from rfl,
    he]
  split
  · exact ⟨_, rfl⟩
  · split
    · exact ⟨_, rfl⟩
    · split
      · exact ⟨_, rfl⟩
      · exact ⟨_, rfl⟩

/-- C3 (as amended): when file reading and markup conversion succeed and at
least one file is discovered, a discovered file whose base name is
`YYYY-MM-DD-<fragment>.md`, with a fragment of at least one byte and no line
feed, and whose date part is not a real calendar date makes the build fail:
it is never skipped. When in addition every call of the output side succeeds
(creating the output directory, parsing the templates, writing the logo,
creating and rendering the pages), the build fails if and only if there is
such a file; a name outside this shape never causes a failure. -/
theorem run_fails_iff_bad_date (S : SliceSorter) (out : OutputSide) (dir : List SourceFile)
    (convert : GoString → Option GoString)
    (hread : ∀ f ∈ dir, f.content ≠ none) (hconv : ∀ t, convert t ≠ none)
    (hdisc : ∃ f ∈ dir, globMatch f.name = true) :
    ((∃ f ∈ dir, globMatch f.name = true ∧
        ∃ y m d frag, nameParts f.name = some (y, m, d, frag) ∧
          frag ≠ [] ∧ NL ∉ frag ∧ realDate y m d = false) →
      ∃ e, run S out dir convert = .error e) ∧
    (out.Succeeds →
      ((∃ e, run S out dir convert = .error e) ↔
        ∃ f ∈ dir, globMatch f.name = true ∧
          ∃ y m d frag, nameParts f.name = some (y, m, d, frag) ∧
            frag ≠ [] ∧ NL ∉ frag ∧ realDate y m d = false)) := by
  have hbad : (∃ f ∈ dir, globMatch f.name = true ∧
        ∃ y m d frag, nameParts f.name = some (y, m, d, frag) ∧
          frag ≠ [] ∧ NL ∉ frag ∧ realDate y m d = false) →
      ∃ e, buildLoop dir convert (discovered dir) [] = .error e := by
    rintro ⟨f, hf, hg, y, mo, d, frag, hparts, hfne, hfnl, hreal⟩
    obtain ⟨m, hm, _, hparse⟩ := nameParts_postFile f.name y mo d frag hparts hfne hfnl
    rw [hreal] at hparse
    exact buildLoop_bad_date dir convert _ [] f.name
      ((mem_discovered dir f.name).2 ⟨f, hf, rfl, hg⟩) m hm (by simpa using hparse)
  refine ⟨fun h => run_error_of_loop S out dir convert (hbad h), ?_⟩
  intro hout
  rw [run_error_iff S out dir convert hout]
  have hne : discovered dir ≠ [] := by
    obtain ⟨f, hf, hg⟩ := hdisc
    intro h0
    have : f.name ∈ discovered dir := (mem_discovered dir f.name).2 ⟨f, hf, rfl, hg⟩
    rw [h0] at this
    cases this
  constructor
  · rintro (h | ⟨e, he⟩)
    · exact absurd h hne
    · obtain ⟨b, hb, m, hm, hcase⟩ := buildLoop_error dir convert _ [] e he
      obtain ⟨f, hf, hfn, hg⟩ := (mem_discovered dir b).1 hb
      obtain ⟨y, mo, d, hparts, hfne, hfnl, _, hparse⟩ := postFile_spec b m hm
      rcases hcase with hd | hr | ⟨text, _, hc⟩
      · refine ⟨f, hf, hfn ▸ hg, y, mo, d, m.2, hfn ▸ hparts, hfne, hfnl, ?_⟩
        rw [hd] at hparse
        cases hreal : realDate y mo d
        · rfl
        · rw [hreal] at hparse; simp at hparse
      · exact absurd hr (readFile_of_mem dir b hread ⟨f, hf, hfn⟩)
      · exact absurd hc (hconv _)
  · intro h
    exact Or.inr (hbad h)

/-- Witness of C3 (as amended): in the directory that holds `README.md` and
`2024-02-30-x.md` every file is readable and one is discovered; the build
fails on the date of `2024-02-30-x.md`, on an output side that succeeds and
on one that does not; the two-post example, whose dates are real, builds. -/
theorem run_fails_iff_bad_date_witness :
    run insertionSorter outputOk badDateDir echoConvert =
      .error (.parsingDate (lit "2024-02-30-x.md")) ∧
    run insertionSorter outputOk twoPosts echoConvert = .ok twoPostsSite ∧
    (∃ e, run insertionSorter outputNameLimit badDateDir echoConvert = .error e) ∧
    ((∃ e, run insertionSorter outputOk badDateDir echoConvert = .error e) ↔
      ∃ f ∈ badDateDir, globMatch f.name = true ∧
        ∃ y m d frag, nameParts f.name = some (y, m, d, frag) ∧
          frag ≠ [] ∧ NL ∉ frag ∧ realDate y m d = false) :=
  ⟨by decide, run_twoPosts,
    (run_fails_iff_bad_date insertionSorter outputNameLimit badDateDir echoConvert (by decide)
      (fun t => by simp [echoConvert]) (by decide)).1
      ⟨⟨lit "2024-02-30-x.md", some (lit "# X\n\nText.")⟩, by decide, by decide,
        2024, 2, 30, lit "x", by decide, by decide, by decide, by decide⟩,
    (run_fails_iff_bad_date insertionSorter outputOk badDateDir echoConvert (by decide)
      (fun t => by simp [echoConvert]) (by decide)).2 outputOk_succeeds⟩

/-- Counterexample to C3 as stated, on two inputs. With `2024-02-30-a\nb.md`
(a line feed in the fragment) next to `2024-01-01-ok.md`, every file is
readable, conversion succeeds and both files are discovered; the first has
the shape `YYYY-MM-DD-<fragment>.md` and the date part 2024-02-30, which is
no calendar date; yet it is skipped and the build succeeds. With a single
post whose name has 255 bytes and a real date, reading and conversion succeed
and the file is discovered, yet the build fails: the page `<slug>.html` has a
name of 257 bytes and cannot be created. -/
theorem run_bad_date_skipped :
    ((∀ f ∈ lineFeedDir, f.content ≠ none) ∧ (∀ t, echoConvert t ≠ none) ∧
      (∃ f ∈ lineFeedDir, globMatch f.name = true) ∧
      run insertionSorter outputOk lineFeedDir echoConvert = .ok lineFeedSite ∧
      ¬ ((∃ e, run insertionSorter outputOk lineFeedDir echoConvert = .error e) ↔
          ∃ f ∈ lineFeedDir, globMatch f.name = true ∧
            ∃ y m d frag, nameParts f.name = some (y, m, d, frag) ∧
              realDate y m d = false)) ∧
    ((∀ f ∈ longNameDir, f.content ≠ none) ∧
      (∃ f ∈ longNameDir, globMatch f.name = true) ∧
      (∀ f ∈ longNameDir, nameParts f.name = some (2024, 1, 1, List.replicate 241 97)) ∧
      realDate 2024 1 1 = true ∧
      run insertionSorter outputNameLimit longNameDir echoConvert =
        .error (.creatingFile (lit "2024-01-01-" ++ List.replicate 241 97 ++ lit ".html")) ∧
      ¬ ((∃ e, run insertionSorter outputNameLimit longNameDir echoConvert = .error e) ↔
          ∃ f ∈ longNameDir, globMatch f.name = true ∧
            ∃ y m d frag, nameParts f.name = some (y, m, d, frag) ∧
              realDate y m d = false)) := by
  have hrun : run insertionSorter outputOk lineFeedDir echoConvert = .ok lineFeedSite := by
    decide
  have hlong : run insertionSorter outputNameLimit longNameDir echoConvert =
      .error (.creatingFile (lit "2024-01-01-" ++ List.replicate 241 97 ++ lit ".html")) := by
    decide
  have hparts : ∀ f ∈ longNameDir,
      nameParts f.name = some (2024, 1, 1, List.replicate 241 97) := by decide
  refine ⟨⟨by decide, fun t => by simp [echoConvert], by decide, hrun, ?_⟩,
    ⟨by decide, by decide, hparts, by decide, hlong, ?_⟩⟩
  · intro hiff
    have hex : ∃ f ∈ lineFeedDir, globMatch f.name = true ∧
        ∃ y m d frag, nameParts f.name = some (y, m, d, frag) ∧ realDate y m d = false :=
      ⟨⟨lit "2024-02-30-a\nb.md", some (lit "# X\n\nLost.")⟩, by decide, by decide,
        2024, 2, 30, lit "a\nb", by decide, by decide⟩
    obtain ⟨e, he⟩ := hiff.2 hex
    rw [hrun] at he
    cases he
  · intro hiff
    obtain ⟨f, hf, _, y, m, d, frag, hp, hreal⟩ := hiff.1 ⟨_, hlong⟩
    rw [hparts f hf] at hp
    simp only [Option.some.injEq, Prod.mk.injEq] at hp
    obtain ⟨rfl, rfl, rfl, _⟩ := hp
    revert hreal
    decide

/-! ## Empty collections -/

theorem sort_nil (S : SliceSorter) (less : Post → Post → Bool) : S.sort less [] = [] :=
  List.Perm.eq_nil (S.perm less [])

/-- C4: on the directory that holds the single file `2024-01-01-.md` (which
the glob discovers and `postFile` rejects) the build never fails for want of
post files, and on an output side that succeeds it does not fail at all: it
returns an empty collection and writes the logo and an index page. -/
theorem run_empty_fragment_succeeds (S : SliceSorter) (out : OutputSide)
    (content : Option GoString) (convert : GoString → Option GoString) :
    run S out [⟨lit "2024-01-01-.md", content⟩] convert ≠ .error .noPostFiles ∧
    (out.Succeeds →
      run S out [⟨lit "2024-01-01-.md", content⟩] convert =
        .ok ⟨[], [lit "goro.svg", lit "index.html"]⟩) := by
  have hd : discovered [⟨lit "2024-01-01-.md", content⟩] = [lit "2024-01-01-.md"] := by
    show sortStrings (List.filter globMatch [lit "2024-01-01-.md"]) = [lit "2024-01-01-.md"]
    decide
  have hp : postFile (lit "2024-01-01-.md") = none := by decide
  have hrun : run S out [⟨lit "2024-01-01-.md", content⟩] convert =
      if !out.mkdirAll then .error .creatingOutputDir
      else if !out.parseTemplates then .error .parsingTemplates
      else if !out.writeLogo then .error .writingLogo
      else if !out.create (lit "index.html") then .error (.creatingFile (lit "index.html"))
      else if !out.executeIndex [] then .error .renderingIndex
      else .ok ⟨[], [lit "goro.svg", lit "index.html"]⟩ := by
    unfold run
    simp only []
    rw [show sortStrings (([(⟨lit "2024-01-01-.md", content⟩ : SourceFile)].map
      fun f => f.name).filter globMatch) = discovered [⟨lit "2024-01-01-.md", content⟩] from rfl,
      hd]
    simp only [List.length_singleton, one_ne_zero, if_false, buildLoop, hp, sort_nil]
    rfl
  rw [hrun]
  constructor
  · repeat' split
    all_goals simp
  · intro hout
    simp only [hout.1, hout.2.1, hout.2.2.1, hout.2.2.2.1, hout.2.2.2.2.1, Bool.not_true,
      Bool.false_eq_true, if_false]

/-- Witness of C4: with insertion sort, the output side on which every call
succeeds and a readable file `2024-01-01-.md`, the build returns an empty
collection. -/
theorem run_empty_fragment_succeeds_witness :
    run insertionSorter outputOk [⟨lit "2024-01-01-.md", some (lit "# T\n\nText.")⟩]
        echoConvert =
      .ok ⟨[], [lit "goro.svg", lit "index.html"]⟩ :=
  (run_empty_fragment_succeeds insertionSorter outputOk (some (lit "# T\n\nText."))
    echoConvert).2 outputOk_succeeds

/-! ## One post per post name -/

theorem isPostName_iff (b : GoString) (hslash : SLASH ∉ b) :
    isPostName b = true ↔ globMatch b = true ∧ postFile b ≠ none := by
  constructor
  · intro h
    unfold isPostName at h
    split at h
    · rename_i y mo d frag hparts
      simp only [Bool.and_eq_true, bne_iff_ne, ne_eq, Bool.not_eq_true',
        List.contains_eq_any_beq, List.any_eq_false, beq_iff_eq] at h
      have hnl : NL ∉ frag := fun hx => h.2 NL hx rfl
      obtain ⟨m, hm, _, _⟩ := nameParts_postFile b y mo d frag hparts h.1 hnl
      obtain ⟨date, rest, hs, hsuf, hfrag, _⟩ := nameParts_some b y mo d frag hparts
      refine ⟨?_, by rw [hm]; simp⟩
      unfold globMatch
      rw [hs]
      simp only [Bool.and_eq_true, Bool.not_eq_true', List.contains_eq_any_beq,
        List.any_eq_false, beq_iff_eq]
      refine ⟨hsuf, ?_⟩
      intro x hx hxe
      obtain ⟨_, _, _, _, _, _, _, _, _, _, _, _, _, _, _, _, _, hb⟩ :=
        splitDatePrefix_some b date rest hs
      apply hslash
      rw [hb, hxe]
      exact List.mem_append_right _ (List.mem_cons_of_mem _ (List.mem_of_mem_take hx))
    · cases h
  · rintro ⟨_, hp⟩
    cases hm : postFile b with
    | none => exact absurd hm hp
    | some m =>
      obtain ⟨y, mo, d, hparts, hne, hnl, _, _⟩ := postFile_spec b m hm
      unfold isPostName
      rw [hparts]
      simp only [Bool.and_eq_true, bne_iff_ne, ne_eq, Bool.not_eq_true',
        List.contains_eq_any_beq, List.any_eq_false, beq_iff_eq]
      exact ⟨hne, fun x hx hxe => hnl (hxe ▸ hx)⟩

theorem isPostName_ext (b : GoString) (h : isPostName b = true) :
    dotMd.isSuffixOf b = true ∧ b = dropExt b ++ dotMd ∧ 14 < b.length := by
  unfold isPostName at h
  split at h
  · rename_i y mo d frag hparts
    obtain ⟨date, rest, hs, hsuf, hfrag, _⟩ := nameParts_some b y mo d frag hparts
    obtain ⟨_, _, _, _, _, _, _, _, _, _, _, _, _, _, _, _, hdate, hb⟩ :=
      splitDatePrefix_some b date rest hs
    have hrest := take_of_dotMd_suffix rest hsuf
    have hsuf' : dotMd <:+ rest := by simpa using hsuf
    have hsb : dotMd <:+ b := by
      rw [hb]
      exact hsuf'.trans ((List.suffix_cons _ _).trans (List.suffix_append _ _))
    have hfne : frag ≠ [] := by
      simp only [Bool.and_eq_true, bne_iff_ne, ne_eq] at h
      exact h.1
    refine ⟨by simpa using hsb, ?_, ?_⟩
    · obtain ⟨t, ht⟩ := hsb
      unfold dropExt
      rw [← ht]
      simp [dotMd]
    · have h1 : 0 < frag.length := List.length_pos.2 hfne
      have h2 : rest.length = frag.length + 3 := by
        rw [hrest, ← hfrag]; simp [dotMd]
      rw [hb, hdate]
      simp only [List.length_append, List.length_cons, List.length_nil]
      omega
  · cases h

theorem filterMap_map_slug (dir : List SourceFile) (convert : GoString → Option GoString)
    (files : List GoString)
    (hall : ∀ b ∈ files, postFile b ≠ none → postOf dir convert b ≠ none) :
    (files.filterMap (postOf dir convert)).map Post.Slug =
      (files.filter (fun b => (postFile b).isSome)).map (fun b => TrimSuffix b dotMd) := by
  induction files with
  | nil => rfl
  | cons b rest ih =>
    have ih' := ih (fun x hx => hall x (List.mem_cons_of_mem _ hx))
    cases hm : postFile b with
    | none =>
      have : postOf dir convert b = none := by simp [postOf, hm]
      rw [List.filterMap_cons, this, List.filter_cons]
      simp [hm, ih']
    | some m =>
      have hne : postOf dir convert b ≠ none :=
        hall b (List.mem_cons_self _ _) (by rw [hm]; simp)
      cases hp : postOf dir convert b with
      | none => exact absurd hp hne
      | some p =>
        rw [List.filterMap_cons, hp, List.filter_cons]
        simp [hm, ih', (postOf_links dir convert b p hp).2.2.1]

theorem run_slugs_perm (S : SliceSorter) (out : OutputSide) (dir : List SourceFile)
    (convert : GoString → Option GoString) (site : Site)
    (hbase : ∀ f ∈ dir, SLASH ∉ f.name)
    (h : run S out dir convert = .ok site) :
    (site.posts.map Post.Slug).Perm
      (((dir.map (fun f => f.name)).filter isPostName).map dropExt) := by
  obtain ⟨_, posts, hp, hs, _⟩ := run_ok S out dir convert site h
  obtain ⟨hposts, hall⟩ := buildLoop_ok dir convert _ [] posts hp
  rw [hs, wire_map_slug]
  refine ((S.perm newerFirst posts).map Post.Slug).trans ?_
  rw [hposts, List.nil_append, filterMap_map_slug dir convert _ hall]
  have hperm : (discovered dir).Perm ((dir.map (fun f => f.name)).filter globMatch) :=
    List.perm_insertionSort _ _
  refine ((hperm.filter _).map _).trans ?_
  rw [List.filter_filter]
  have hfilter : (dir.map (fun f => f.name)).filter
      (fun b => (postFile b).isSome && globMatch b) =
      (dir.map (fun f => f.name)).filter isPostName := by
    apply List.filter_congr
    intro b hb
    obtain ⟨f, hf, rfl⟩ := List.mem_map.1 hb
    have := isPostName_iff f.name (hbase f hf)
    cases hi : isPostName f.name
    · cases hg : globMatch f.name
      · simp
      · cases hm : postFile f.name
        · simp
        · exfalso
          have := this.2 ⟨hg, by rw [hm]; simp⟩
          rw [hi] at this; cases this
    · obtain ⟨hg, hm⟩ := this.1 hi
      rw [hg]
      cases hm' : postFile f.name
      · exact absurd hm' hm
      · simp
  rw [hfilter]
  apply List.Perm.of_eq
  apply List.map_congr_left
  intro b hb
  have hpn := (List.mem_filter.1 hb).2
  have := isPostName_ext b hpn
  unfold TrimSuffix dropExt
  rw [if_pos this.1]
  simp [dotMd]

/-- C5 (as amended): when the base names are pairwise distinct (and are base
names: no path separator) and the build succeeds, the collection holds
exactly one Post per file whose base name is `YYYY-MM-DD-<fragment>.md` with
a fragment of at least one byte and no line feed, and no Post for any other
file: the slugs are, up to order, those names without the trailing `.md`;
they are pairwise distinct; every slug followed by `.md` is the name of such
a file and starts with the same date head. -/
theorem run_one_post_per_name (S : SliceSorter) (out : OutputSide) (dir : List SourceFile)
    (convert : GoString → Option GoString) (site : Site)
    (hnodup : (dir.map (fun f => f.name)).Nodup)
    (hbase : ∀ f ∈ dir, SLASH ∉ f.name)
    (h : run S out dir convert = .ok site) :
    (site.posts.map Post.Slug).Perm
      (((dir.map (fun f => f.name)).filter isPostName).map dropExt) ∧
    (site.posts.map Post.Slug).Nodup ∧
    ∀ p ∈ site.posts, ∃ f ∈ dir, isPostName f.name = true ∧ f.name = p.Slug ++ dotMd ∧
      p.Slug.take 11 = f.name.take 11 := by
  have hperm := run_slugs_perm S out dir convert site hbase h
  have hinj : ∀ a ∈ (dir.map (fun f => f.name)).filter isPostName,
      ∀ b ∈ (dir.map (fun f => f.name)).filter isPostName, dropExt a = dropExt b → a = b := by
    intro a ha b hb hab
    rw [(isPostName_ext a (List.mem_filter.1 ha).2).2.1,
      (isPostName_ext b (List.mem_filter.1 hb).2).2.1, hab]
  refine ⟨hperm, ?_, ?_⟩
  · rw [hperm.nodup_iff]
    exact List.Nodup.map_on hinj (hnodup.filter _)
  · intro p hp
    have hmem : p.Slug ∈ ((dir.map (fun f => f.name)).filter isPostName).map dropExt :=
      hperm.mem_iff.1 (List.mem_map_of_mem _ hp)
    obtain ⟨n, hn, hslug⟩ := List.mem_map.1 hmem
    obtain ⟨hnm, hpn⟩ := List.mem_filter.1 hn
    obtain ⟨f, hf, rfl⟩ := List.mem_map.1 hnm
    have hext := isPostName_ext f.name hpn
    refine ⟨f, hf, hpn, by rw [← hslug]; exact hext.2.1, ?_⟩
    rw [← hslug]
    unfold dropExt
    rw [List.take_take]
    congr 1
    omega

/-- Witness of C5 (as amended) on the two-post example. -/
theorem run_one_post_per_name_witness :
    (twoPostsSite.posts.map Post.Slug).Perm
      (((twoPosts.map (fun f => f.name)).filter isPostName).map dropExt) ∧
    (twoPostsSite.posts.map Post.Slug).Nodup ∧
    ∀ p ∈ twoPostsSite.posts, ∃ f ∈ twoPosts, isPostName f.name = true ∧
      f.name = p.Slug ++ dotMd ∧ p.Slug.take 11 = f.name.take 11 :=
  run_one_post_per_name insertionSorter outputOk twoPosts echoConvert twoPostsSite
    (by decide) (by decide) run_twoPosts

/-- Counterexample to C5 as stated: the base names of `lineFeedDir` are
pairwise distinct base names and the build succeeds, `2024-02-30-a\nb.md` has
the shape `YYYY-MM-DD-<non-empty fragment>.md`, yet the collection has no
Post for it: the slugs are not those of the files of that shape. -/
theorem run_line_feed_name_no_post :
    (lineFeedDir.map (fun f => f.name)).Nodup ∧
    (∀ f ∈ lineFeedDir, SLASH ∉ f.name) ∧
    run insertionSorter outputOk lineFeedDir echoConvert = .ok lineFeedSite ∧
    hasPostShape (lit "2024-02-30-a\nb.md") = true ∧
    lit "2024-02-30-a\nb" ∉ lineFeedSite.posts.map Post.Slug ∧
    ¬ (lineFeedSite.posts.map Post.Slug).Perm
      (((lineFeedDir.map (fun f => f.name)).filter hasPostShape).map dropExt) := by
  refine ⟨by decide, by decide, by decide, by decide, by decide, ?_⟩
  intro hperm
  have := hperm.length_eq
  revert this
  decide

/-! ## The heading pattern, line by line -/

theorem firstLine_cons (b : Nat) (t : GoString) :
    firstLine (b :: t) = if b = NL then [] else b :: firstLine t := by
  unfold firstLine
  by_cases hb : b = NL <;> simp [List.takeWhile_cons, hb]

theorem afterLine_cons (b : Nat) (t : GoString) :
    afterLine (b :: t) = if b = NL then b :: t else afterLine t := by
  unfold afterLine
  by_cases hb : b = NL <;> simp [List.dropWhile_cons, hb]

theorem h1At_eq (pos : Nat) (s : GoString) :
    h1At pos s =
      if isHeading (firstLine s) = true then
        some ⟨pos, pos + (firstLine s).length + ((afterLine s).takeWhile (· = NL)).length,
          (firstLine s).drop 2⟩
      else none := by
  match s with
  | [] => simp [h1At, firstLine, isHeading, HasPrefix]
  | [a] =>
    by_cases ha : a = NL <;> simp [h1At, firstLine_cons, firstLine, isHeading, HasPrefix, ha]
  | [a, b] =>
    by_cases ha : a = NL <;> by_cases hb : b = NL <;>
      simp [h1At, firstLine_cons, firstLine, isHeading, HasPrefix, ha, hb]
  | a :: b :: c :: rest =>
    simp only [h1At]
    by_cases h : a = HASH ∧ b = SP ∧ c ≠ NL
    · obtain ⟨rfl, rfl, hc⟩ := h
      have hfl : firstLine (HASH :: SP :: c :: rest) = HASH :: SP :: c :: firstLine rest := by
        simp [firstLine_cons, hc]
      have hal : afterLine (HASH :: SP :: c :: rest) = afterLine rest := by
        simp [afterLine_cons, hc]
      rw [hfl, hal]
      simp only [isHeading, HasPrefix]
      simp [firstLine, afterLine, hc]
      omega
    · rw [if_neg h, if_neg]
      simp only [isHeading, HasPrefix, Bool.and_eq_true, decide_eq_true_eq, not_and]
      intro hp
      by_cases ha : a = NL
      · simp [firstLine_cons, ha] at hp
      · by_cases hb : b = NL
        · simp [firstLine_cons, ha, hb] at hp
        · by_cases hc : c = NL
          · simp [firstLine_cons, ha, hb, hc]
          · simp [firstLine_cons, ha, hb, hc] at hp
            exact absurd ⟨hp.1.symm, hp.2.symm, hc⟩ h

theorem h1Scan_false (pos : Nat) (s : GoString) :
    h1Scan pos false s =
      match afterLine s with
      | [] => none
      | _ :: rest => h1Scan (pos + (firstLine s).length + 1) true rest := by
  induction s generalizing pos with
  | nil => simp [h1Scan, afterLine]
  | cons b t ih =>
    simp only [h1Scan]
    by_cases hb : b = NL
    · subst hb
      simp [afterLine_cons, firstLine_cons]
    · have hbf : (b == NL) = false := by simpa using hb
      simp only [Bool.false_eq_true, if_false, hbf]
      rw [ih, afterLine_cons, firstLine_cons, if_neg hb, if_neg hb]
      cases afterLine t with
      | nil => rfl
      | cons x rest =>
        simp only [List.length_cons]
        congr 1
        omega

theorem h1Scan_true (pos : Nat) (s : GoString) :
    h1Scan pos true s =
      if isHeading (firstLine s) = true then
        some ⟨pos, pos + (firstLine s).length + ((afterLine s).takeWhile (· = NL)).length,
          (firstLine s).drop 2⟩
      else
        match afterLine s with
        | [] => none
        | _ :: rest => h1Scan (pos + (firstLine s).length + 1) true rest := by
  cases s with
  | nil => simp [h1Scan, firstLine, afterLine, isHeading, HasPrefix]
  | cons b t =>
    simp only [h1Scan, if_true]
    rw [h1At_eq]
    by_cases hh : isHeading (firstLine (b :: t)) = true
    · rw [if_pos hh, if_pos hh]
    · rw [if_neg hh, if_neg hh]
      simp only []
      by_cases hb : b = NL
      · subst hb
        simp [afterLine_cons, firstLine_cons]
      · have hbf : (b == NL) = false := by simpa using hb
        rw [hbf, h1Scan_false, afterLine_cons, firstLine_cons, if_neg hb, if_neg hb]
        cases afterLine t with
        | nil => rfl
        | cons x rest =>
          simp only [List.length_cons]
          congr 1
          omega

theorem afterLine_length_le (s : GoString) : (afterLine s).length ≤ s.length := by
  have := congrArg List.length (firstLine_append_afterLine s)
  simp only [List.length_append] at this
  omega

theorem h1Scan_group_aux (n : Nat) : ∀ (s : GoString) (pos : Nat), s.length ≤ n →
    (h1Scan pos true s).map (fun m => m.group) =
      ((Split s).find? isHeading).map (fun l => l.drop 2) := by
  induction n with
  | zero =>
    intro s pos hn
    have : s = [] := List.length_eq_zero.1 (by omega)
    subst this
    simp [h1Scan, Split, isHeading, HasPrefix]
  | succ n ih =>
    intro s pos hn
    rw [h1Scan_true, Split_eq, List.find?_cons]
    by_cases hh : isHeading (firstLine s) = true
    · rw [if_pos hh, hh]
      rfl
    · rw [if_neg hh]
      have hf : isHeading (firstLine s) = false := by simpa using hh
      rw [hf]
      have hlen := afterLine_length_le s
      cases hal : afterLine s with
      | nil => simp
      | cons x rest =>
        simp only []
        rw [hal] at hlen
        simp only [List.length_cons] at hlen
        exact ih rest _ (by omega)

theorem h1Scan_group (s : GoString) (pos : Nat) :
    (h1Scan pos true s).map (fun m => m.group) =
      ((Split s).find? isHeading).map (fun l => l.drop 2) :=
  h1Scan_group_aux s.length s pos (le_refl _)

theorem extractTitle_eq (s : GoString) :
    extractTitle s =
      match (Split s).find? isHeading with
      | some l => TrimSpace (l.drop 2)
      | none => untitled := by
  have h := h1Scan_group s 0
  unfold extractTitle h1Find
  cases hs : h1Scan 0 true s with
  | none =>
    rw [hs] at h
    cases hf : (Split s).find? isHeading with
    | none => rfl
    | some l => rw [hf] at h; cases h
  | some m =>
    rw [hs] at h
    cases hf : (Split s).find? isHeading with
    | none => rw [hf] at h; cases h
    | some l =>
      rw [hf] at h
      simp only [Option.map_some', Option.some.injEq] at h
      simp only [h]

/-- C6 (as amended): when some line of the document begins with `# ` and has
at least one more byte, `extractTitle` returns the remainder of the first
such line with surrounding white space trimmed: the remainder is white space,
then the title, then white space, the title neither starts nor ends with a
white-space character, and no other text has this property. A line that is
exactly `# ` is not a heading line. -/
theorem extractTitle_first_heading (s line : GoString)
    (h : (Split s).find? isHeading = some line) :
    extractTitle s = TrimSpace (line.drop 2) ∧
    IsTrimOf (extractTitle s) (line.drop 2) ∧
    ∀ t, IsTrimOf t (line.drop 2) → extractTitle s = t := by
  have he : extractTitle s = TrimSpace (line.drop 2) := by rw [extractTitle_eq, h]
  exact ⟨he, he ▸ TrimSpace_isTrimOf _, fun t ht => he.trans (IsTrimOf_unique t _ ht).symm⟩

/-- Witness of C6 (as amended): `# Hello World`, a blank line and a body line
give the title `Hello World`; so does a heading line after an introduction
whose remainder has spaces, tabs, a no-break space and a carriage return
around the title; after `# T` followed by the bytes `E2 80 20` the space is
trimmed and the two bytes stay. -/
theorem extractTitle_first_heading_witness :
    (Split (lit "# Hello World\n\nBody text.")).find? isHeading = some (lit "# Hello World") ∧
    extractTitle (lit "# Hello World\n\nBody text.") = TrimSpace ((lit "# Hello World").drop 2) ∧
    extractTitle (lit "# Hello World\n\nBody text.") = lit "Hello World" ∧
    (Split (lit "intro\n#  \t Hello World \u00a0\t\r\n\n# Next")).find? isHeading =
      some (lit "#  \t Hello World \u00a0\t\r") ∧
    IsTrimOf (extractTitle (lit "intro\n#  \t Hello World \u00a0\t\r\n\n# Next"))
      (lit " \t Hello World \u00a0\t\r") ∧
    extractTitle (lit "intro\n#  \t Hello World \u00a0\t\r\n\n# Next") = lit "Hello World" ∧
    extractTitle (lit "# T" ++ [0xE2, 0x80, 0x20]) = lit "T" ++ [0xE2, 0x80] :=
  ⟨by decide,
    (extractTitle_first_heading (lit "# Hello World\n\nBody text.") (lit "# Hello World")
      (by decide)).1,
    by decide, by decide,
    (extractTitle_first_heading (lit "intro\n#  \t Hello World \u00a0\t\r\n\n# Next")
      (lit "#  \t Hello World \u00a0\t\r") (by decide)).2.1,
    by decide, by decide⟩

/-- Counterexample to C6 as stated: in `# ` followed by the line `# Real` the
first line that begins with `# ` is `# ` itself, whose trimmed remainder is
empty, but `extractTitle` returns `Real`; and the document `# ` alone has a
line that begins with `# ` and gets the title `Untitled`. -/
theorem extractTitle_bare_heading :
    (Split (lit "# \n# Real")).find? (fun l => HasPrefix l [HASH, SP]) = some (lit "# ") ∧
    TrimSpace ((lit "# ").drop 2) = [] ∧
    extractTitle (lit "# \n# Real") = lit "Real" ∧
    extractTitle (lit "# \n# Real") ≠ TrimSpace ((lit "# ").drop 2) ∧
    extractTitle (lit "# ") = lit "Untitled" := by
  refine ⟨by decide, by decide, by decide, by decide, by decide⟩

/-- C7: a document in which no line begins with `# ` has the title
`Untitled`. -/
theorem extractTitle_untitled (s : GoString)
    (h : ∀ l ∈ Split s, HasPrefix l [HASH, SP] = false) :
    extractTitle s = lit "Untitled" := by
  rw [extractTitle_eq]
  have : (Split s).find? isHeading = none := by
    rw [List.find?_eq_none]
    intro l hl
    simp [isHeading, h l hl]
  rw [this]
  rfl

/-- Witness of C7: the empty document, and a document whose lines start with
`##` and with `#` not followed by a space. -/
theorem extractTitle_untitled_witness :
    extractTitle [] = lit "Untitled" ∧
    extractTitle (lit "## Section\n#tag\n ## indented\ntext # not at the start") =
      lit "Untitled" :=
  ⟨extractTitle_untitled [] (by decide),
    extractTitle_untitled (lit "## Section\n#tag\n ## indented\ntext # not at the start")
      (by decide)⟩

/-! ## Descriptions -/

theorem collectLoop_eq (acc lines : List GoString) :
    collectLoop acc lines = acc ++ (lines.map TrimSpace).takeWhile (fun l => !isBreak l) := by
  induction lines generalizing acc with
  | nil => simp [collectLoop]
  | cons line rest ih =>
    simp only [collectLoop, List.map_cons, List.takeWhile_cons]
    cases hb : isBreak (TrimSpace line)
    · simp [ih]
    · simp

theorem joinedDesc_eq (s : GoString) :
    joinedDesc s = firstParagraph (TrimSpace (stripFirstH1 s)) := by
  simp [joinedDesc, firstParagraph, collectLoop_eq]

theorem LastIndex_bounds (s : GoString) (c : Nat) :
    -1 ≤ LastIndex s c ∧ LastIndex s c < (s.length : Int) := by
  induction s with
  | nil => simp [LastIndex]
  | cons b rest ih =>
    simp only [LastIndex, List.length_cons, Nat.cast_add, Nat.cast_one]
    split
    · omega
    · split <;> omega

theorem LastIndex_spec (s : GoString) (c : Nat) :
    (0 ≤ LastIndex s c → s[(LastIndex s c).toNat]? = some c) ∧
    (∀ j : Nat, LastIndex s c < (j : Int) → s[j]? ≠ some c) := by
  induction s with
  | nil => simp [LastIndex]
  | cons b rest ih =>
    obtain ⟨ih1, ih2⟩ := ih
    simp only [LastIndex]
    by_cases h0 : 0 ≤ LastIndex rest c
    · rw [if_pos h0]
      constructor
      · intro _
        have : (LastIndex rest c + 1).toNat = (LastIndex rest c).toNat + 1 := by omega
        rw [this, List.getElem?_cons_succ]
        exact ih1 h0
      · intro j hj
        cases j with
        | zero => omega
        | succ j =>
          rw [List.getElem?_cons_succ]
          apply ih2
          push_cast at hj
          omega
    · rw [if_neg h0]
      by_cases hb : b = c
      · rw [if_pos hb]
        constructor
        · intro _; simp [hb]
        · intro j hj
          cases j with
          | zero => simp at hj
          | succ j =>
            rw [List.getElem?_cons_succ]
            apply ih2
            omega
      · rw [if_neg hb]
        constructor
        · intro h; omega
        · intro j _
          cases j with
          | zero => simpa using hb
          | succ j =>
            rw [List.getElem?_cons_succ]
            apply ih2
            omega

theorem LastIndex_eq_of (s : GoString) (c i : Nat) (hi : s[i]? = some c)
    (hlast : ∀ j, i < j → s[j]? ≠ some c) : LastIndex s c = (i : Int) := by
  obtain ⟨h1, h2⟩ := LastIndex_spec s c
  have hb := LastIndex_bounds s c
  have hge : (i : Int) ≤ LastIndex s c := by
    by_contra hlt
    exact h2 i (by omega) hi
  have h0 : 0 ≤ LastIndex s c := by omega
  have hle : (LastIndex s c).toNat ≤ i := by
    by_contra hgt
    exact hlast _ (by omega) (h1 h0)
  omega

theorem LastIndex_le_of (s : GoString) (c k : Nat)
    (hnone : ∀ j, k < j → s[j]? ≠ some c) : LastIndex s c ≤ (k : Int) := by
  obtain ⟨h1, _⟩ := LastIndex_spec s c
  by_contra hgt
  have h0 : 0 ≤ LastIndex s c := by omega
  exact hnone _ (by omega) (h1 h0)

/-- C8: with `t` the trimmed text after the title heading and `J` the
space-joined first paragraph of `t`, a `J` of length at most 200 (Go `len`)
is the description; in particular the description is empty when no line is
collected, and when no line of `t` is empty, a heading or a fence the
description is the space-joined whole of the trimmed lines of `t`. The last
part states the same with trimming in the words of the specification: `t` is
any text that is the text after the heading without its surrounding white
space, and `L` any list of the lines of `t` without theirs. -/
theorem extractDesc_short (s : GoString) :
    ((firstParagraph (TrimSpace (stripFirstH1 s))).length ≤ 200 →
      extractDesc s = firstParagraph (TrimSpace (stripFirstH1 s))) ∧
    (((Split (TrimSpace (stripFirstH1 s))).map TrimSpace).takeWhile
        (fun l => !isBreak l) = [] → extractDesc s = []) ∧
    ((∀ l ∈ (Split (TrimSpace (stripFirstH1 s))).map TrimSpace, isBreak l = false) →
      (Join ((Split (TrimSpace (stripFirstH1 s))).map TrimSpace) [SP]).length ≤ 200 →
      extractDesc s = Join ((Split (TrimSpace (stripFirstH1 s))).map TrimSpace) [SP]) ∧
    (∀ t L, IsTrimOf t (stripFirstH1 s) → List.Forall₂ IsTrimOf L (Split t) →
      (Join (L.takeWhile (fun l => !isBreak l)) [SP]).length ≤ 200 →
      extractDesc s = Join (L.takeWhile (fun l => !isBreak l)) [SP]) := by
  have main : (firstParagraph (TrimSpace (stripFirstH1 s))).length ≤ 200 →
      extractDesc s = firstParagraph (TrimSpace (stripFirstH1 s)) := by
    intro h
    unfold extractDesc truncateDesc
    rw [joinedDesc_eq, if_neg (by omega)]
  refine ⟨main, ?_, ?_, ?_⟩
  · intro h
    have hJ : firstParagraph (TrimSpace (stripFirstH1 s)) = [] := by
      unfold firstParagraph; rw [h]; rfl
    rw [main (by rw [hJ]; simp), hJ]
  · intro hno hlen
    have hJ : firstParagraph (TrimSpace (stripFirstH1 s)) =
        Join ((Split (TrimSpace (stripFirstH1 s))).map TrimSpace) [SP] := by
      unfold firstParagraph
      rw [List.takeWhile_eq_self_iff.2]
      intro l hl
      simp [hno l hl]
    rw [main (by rw [hJ]; exact hlen), hJ]
  · intro t L ht hL hlen
    have ht' := IsTrimOf_unique t _ ht
    subst ht'
    have hL' := forall₂_isTrimOf L _ hL
    subst hL'
    exact main hlen

/-- Witness of C8: a title, a two-line paragraph and a later paragraph; a
document without any line after its title; a paragraph whose text and lines
have spaces, tabs, an ideographic space, an em space and a carriage return
around them and a no-break space inside; and a line that ends in the bytes
`E2 80` and a tab, of which only the tab is trimmed. -/
theorem extractDesc_short_witness :
    extractDesc (lit "# A\n\n  First para   \nsecond line\n\nmore") =
      lit "First para second line" ∧
    extractDesc (lit "# A\n\n") = [] ∧
    extractDesc (lit "# A\n\nSecond.\nThird.") = lit "Second. Third." ∧
    extractDesc
        (lit "# A\n\n \u3000 First para \t \n\tsecond\u00a0line\u2003\r\n \t\nmore \n") =
      Join [lit "First para", lit "second\u00a0line"] [SP] ∧
    extractDesc (lit "ab" ++ [0xE2, 0x80, 0x09] ++ lit "\n\nrest") = lit "ab" ++ [0xE2, 0x80] :=
  ⟨((extractDesc_short (lit "# A\n\n  First para   \nsecond line\n\nmore")).1
      (by decide)).trans (by decide),
    (extractDesc_short (lit "# A\n\n")).2.1 (by decide),
    ((extractDesc_short (lit "# A\n\nSecond.\nThird.")).2.2.1 (by decide) (by decide)).trans
      (by decide),
    (extractDesc_short
        (lit "# A\n\n \u3000 First para \t \n\tsecond\u00a0line\u2003\r\n \t\nmore \n")
      ).2.2.2
      (lit "First para \t \n\tsecond\u00a0line\u2003\r\n \t\nmore")
      [lit "First para", lit "second\u00a0line", [], lit "more"]
      ((isTrimOf_iff _ _).2 (by decide))
      (by
        have h : [lit "First para", lit "second\u00a0line", [], lit "more"] =
            (Split (lit "First para \t \n\tsecond\u00a0line\u2003\r\n \t\nmore")).map
              TrimSpace := by decide
        rw [h]
        exact forall₂_map_TrimSpace _)
      (by decide),
    by decide⟩

theorem truncateDesc_long (J : GoString) (h : 200 < J.length) :
    truncateDesc J =
      (if LastIndex (J.take 200) SP > 100 then
        (J.take 200).take (LastIndex (J.take 200) SP).toNat
      else J.take 200) ++ ellipsis := by
  unfold truncateDesc
  rw [if_pos h]

theorem truncateDesc_prefix (J : GoString) (h : 200 < J.length) :
    ∃ P, truncateDesc J = P ++ ellipsis ∧ P <+: J ∧ 100 < P.length ∧ P.length ≤ 200 := by
  rw [truncateDesc_long J h]
  have hb := LastIndex_bounds (J.take 200) SP
  have hlen : (J.take 200).length = 200 := by
    rw [List.length_take]; omega
  by_cases hi : LastIndex (J.take 200) SP > 100
  · rw [if_pos hi]
    refine ⟨_, rfl, ?_, ?_, ?_⟩
    · exact (List.take_prefix _ _).trans (List.take_prefix _ _)
    · rw [List.length_take, hlen]; omega
    · rw [List.length_take, hlen]; omega
  · rw [if_neg hi]
    exact ⟨_, rfl, List.take_prefix _ _, by omega, by omega⟩

/-- C9: when the space-joined first paragraph `J` is longer than 200 (Go
`len`), the description is a prefix `P` of `J` followed by the ellipsis, with
the length of `P` greater than 100 and at most 200; hence every description
is either `J` itself, of length at most 200, or at most 200 bytes followed by
the ellipsis. -/
theorem extractDesc_long (s : GoString) :
    (200 < (joinedDesc s).length →
      ∃ P, extractDesc s = P ++ ellipsis ∧ P <+: joinedDesc s ∧
        100 < P.length ∧ P.length ≤ 200) ∧
    ((extractDesc s = joinedDesc s ∧ (joinedDesc s).length ≤ 200) ∨
      ∃ P, extractDesc s = P ++ ellipsis ∧ P.length ≤ 200 ∧
        200 < (joinedDesc s).length) := by
  refine ⟨fun h => truncateDesc_prefix _ h, ?_⟩
  by_cases h : 200 < (joinedDesc s).length
  · right
    obtain ⟨P, h1, _, _, h4⟩ := truncateDesc_prefix _ h
    exact ⟨P, h1, h4, h⟩
  · left
    refine ⟨?_, by omega⟩
    unfold extractDesc truncateDesc
    rw [if_neg (by omega)]

theorem joinedDesc_longLine : joinedDesc longLine = longLine := by
  decide

theorem extractDesc_longLine :
    extractDesc longLine = List.replicate 150 97 ++ ellipsis := by
  decide

/-- Witness of C9: a paragraph of 150 letters, a space and 99 letters is
longer than 200 and is cut to its first 150 bytes followed by the ellipsis. -/
theorem extractDesc_long_witness :
    200 < (joinedDesc longLine).length ∧
    extractDesc longLine = List.replicate 150 97 ++ ellipsis ∧
    ∃ P, extractDesc longLine = P ++ ellipsis ∧ P <+: joinedDesc longLine ∧
      100 < P.length ∧ P.length ≤ 200 :=
  ⟨by rw [joinedDesc_longLine]; decide, extractDesc_longLine,
    (extractDesc_long longLine).1 (by rw [joinedDesc_longLine]; decide)⟩

/-- C10 (as amended): when the space-joined first paragraph `J` is longer than
200, the description is cut at a word boundary if the first 200 bytes of `J`
hold a space at an index above 100: the retained prefix ends where the last
such space begins. When they hold none, the retained prefix is the first 200
bytes of `J`, wherever that falls. -/
theorem extractDesc_cut (s : GoString) (h : 200 < (joinedDesc s).length) :
    (∀ i, 100 < i → i < 200 → (joinedDesc s)[i]? = some SP →
      (∀ j, i < j → j < 200 → (joinedDesc s)[j]? ≠ some SP) →
      extractDesc s = (joinedDesc s).take i ++ ellipsis) ∧
    ((∀ j, 100 < j → j < 200 → (joinedDesc s)[j]? ≠ some SP) →
      extractDesc s = (joinedDesc s).take 200 ++ ellipsis) := by
  unfold extractDesc
  rw [truncateDesc_long _ h]
  generalize joinedDesc s = J at h
  have hget : ∀ j, (J.take 200)[j]? = if j < 200 then J[j]? else none := by
    intro j
    rw [List.getElem?_take]
  constructor
  · intro i h1 h2 hsp hlast
    have hL : LastIndex (J.take 200) SP = (i : Int) := by
      apply LastIndex_eq_of
      · rw [hget, if_pos h2]; exact hsp
      · intro j hj
        rw [hget]
        by_cases hj2 : j < 200
        · rw [if_pos hj2]; exact hlast j hj hj2
        · rw [if_neg hj2]; simp
    rw [hL, if_pos (by omega), List.take_take]
    congr 2
    simp only [Int.toNat_ofNat]
    omega
  · intro hnone
    have hL : LastIndex (J.take 200) SP ≤ ((100 : Nat) : Int) := by
      apply LastIndex_le_of
      intro j hj
      rw [hget]
      by_cases hj2 : j < 200
      · rw [if_pos hj2]; exact hnone j hj hj2
      · rw [if_neg hj2]; simp
    rw [if_neg (by push_cast at hL; omega)]

/-- Witness of C10 (as amended): 150 letters, a space and 99 letters are cut
at the space, index 150; 250 letters without a space are cut after byte
200. -/
theorem extractDesc_cut_witness :
    extractDesc longLine = (joinedDesc longLine).take 150 ++ ellipsis ∧
    extractDesc longWord = (joinedDesc longWord).take 200 ++ ellipsis :=
  ⟨(extractDesc_cut longLine (by rw [joinedDesc_longLine]; decide)).1 150
      (by decide) (by decide) (by rw [joinedDesc_longLine]; decide)
      (by
        rw [joinedDesc_longLine]
        intro j h1 h2
        have : ∀ j, j < 200 → 150 < j → longLine[j]? ≠ some SP := by decide
        exact this j h2 h1),
    (extractDesc_cut longWord (by decide)).2
      (by
        intro j h1 h2
        have : ∀ j, j < 200 → 100 < j → (joinedDesc longWord)[j]? ≠ some SP := by decide
        exact this j h2 h1)⟩

/-- Counterexample to C10 as stated: the first paragraph of 250 letters `a`
is longer than 200 and its description is the first 200 letters and the
ellipsis; the byte of `J` right after the retained prefix is a letter, not a
space: the cut is mid-word. -/
theorem extractDesc_mid_word :
    200 < (joinedDesc longWord).length ∧
    extractDesc longWord = List.replicate 200 97 ++ ellipsis ∧
    (joinedDesc longWord)[200]? = some 97 ∧
    ¬ ∃ P, extractDesc longWord = P ++ ellipsis ∧ P <+: joinedDesc longWord ∧
      100 < P.length ∧ (joinedDesc longWord)[P.length]? = some SP := by
  have hd : extractDesc longWord = List.replicate 200 97 ++ ellipsis := by decide
  have hj : (joinedDesc longWord)[200]? = some 97 := by decide
  refine ⟨by decide, hd, hj, ?_⟩
  rintro ⟨P, hP, _, _, hsp⟩
  rw [hd] at hP
  have hPeq : P = List.replicate 200 97 := (List.append_cancel_right hP).symm
  subst hPeq
  rw [List.length_replicate, hj] at hsp
  cases hsp

/-! ## Bytes and characters -/

theorem runeCountFrom_ascii (s : GoString) (h : ∀ b ∈ s, b < 0x80) :
    runeCountFrom 0 s = s.length := by
  induction s with
  | nil => rfl
  | cons b rest ih =>
    have hb : b < 0x80 := h b (List.mem_cons_self _ _)
    have ih' := ih (fun x hx => h x (List.mem_cons_of_mem _ hx))
    simp only [runeCountFrom, runeWidth, hb, if_true, Nat.lt_irrefl, if_false, Nat.sub_self,
      List.length_cons]
    rw [ih']
    omega

theorem runeCount_ascii (s : GoString) (h : ∀ b ∈ s, b < 0x80) :
    runeCount s = s.length :=
  runeCountFrom_ascii s h

theorem extractDesc_accents :
    extractDesc accents = repeatChar 100 [0xC3, 0xA9] ++ ellipsis := by
  decide

theorem joinedDesc_accents : joinedDesc accents = accents := by
  decide

/-- C11 (as amended): the 200 limit of the description counts bytes (Go
`len`). A space-joined first paragraph `J` of at most 200 bytes is returned
unchanged, without ellipsis; so is an ASCII paragraph of at most 200
characters. A `J` of more than 200 bytes is cut to at most 200 bytes followed
by the ellipsis, however few characters it has. -/
theorem extractDesc_byte_limit (s : GoString) :
    ((joinedDesc s).length ≤ 200 → extractDesc s = joinedDesc s) ∧
    ((∀ b ∈ joinedDesc s, b < 0x80) → runeCount (joinedDesc s) ≤ 200 →
      extractDesc s = joinedDesc s) ∧
    (200 < (joinedDesc s).length →
      ∃ P, extractDesc s = P ++ ellipsis ∧ P <+: joinedDesc s ∧ P.length ≤ 200) := by
  have main : (joinedDesc s).length ≤ 200 → extractDesc s = joinedDesc s := by
    intro h
    unfold extractDesc truncateDesc
    rw [if_neg (by omega)]
  refine ⟨main, ?_, ?_⟩
  · intro hascii hcount
    rw [runeCount_ascii _ hascii] at hcount
    exact main hcount
  · intro h
    obtain ⟨P, h1, h2, _, h4⟩ := truncateDesc_prefix _ h
    exact ⟨P, h1, h2, h4⟩

/-- Witness of C11 (as amended): a short paragraph with accented letters is
returned unchanged; the paragraph of 150 letters `é` has 300 bytes and is
cut. -/
theorem extractDesc_byte_limit_witness :
    extractDesc (lit "# T\n\nCafé olé.") = joinedDesc (lit "# T\n\nCafé olé.") ∧
    extractDesc (lit "# T\n\nplain text") = joinedDesc (lit "# T\n\nplain text") ∧
    ∃ P, extractDesc accents = P ++ ellipsis ∧ P <+: joinedDesc accents ∧ P.length ≤ 200 :=
  ⟨(extractDesc_byte_limit (lit "# T\n\nCafé olé.")).1 (by decide),
    (extractDesc_byte_limit (lit "# T\n\nplain text")).2.1 (by decide) (by decide),
    (extractDesc_byte_limit accents).2.2 (by rw [joinedDesc_accents]; decide)⟩

/-- Counterexample to C11 as stated: the paragraph of 150 letters `é` is
valid UTF-8 and has 150 characters, at most 200, yet its description is the
first 100 letters followed by the ellipsis, not the paragraph. -/
theorem extractDesc_counts_bytes :
    validUTF8 accents = true ∧
    runeCount (joinedDesc accents) = 150 ∧
    (joinedDesc accents).length = 300 ∧
    extractDesc accents = repeatChar 100 [0xC3, 0xA9] ++ ellipsis ∧
    ¬ (runeCount (joinedDesc accents) ≤ 200 → extractDesc accents = joinedDesc accents) := by
  have hj := joinedDesc_accents
  have hd := extractDesc_accents
  refine ⟨by decide, by rw [hj]; decide, by rw [hj]; decide, hd, ?_⟩
  intro h
  have h1 := h (by rw [hj]; decide)
  rw [hd, hj] at h1
  have h2 := congrArg List.length h1
  revert h2
  decide

/-! ## The body after the first paragraph -/

theorem stripLoop_eq (L : List GoString) :
    stripLoop L = Join (L.dropWhile (fun l => !isBreak (TrimSpace l))) [NL] := by
  induction L with
  | nil => rfl
  | cons line rest ih =>
    simp only [stripLoop, List.dropWhile_cons]
    cases hb : isBreak (TrimSpace line)
    · simp [ih]
    · simp

theorem dropWhile_eq_drop (L : List GoString) (p : GoString → Bool) (i : Nat) (l : GoString)
    (hi : L[i]? = some l) (hl : p l = false)
    (hfirst : ∀ j l', j < i → L[j]? = some l' → p l' = true) :
    L.dropWhile p = L.drop i ∧ L.takeWhile p = L.take i := by
  induction L generalizing i with
  | nil => simp at hi
  | cons x rest ih =>
    cases i with
    | zero =>
      simp only [List.getElem?_cons_zero, Option.some.injEq] at hi
      subst hi
      simp [List.dropWhile_cons, List.takeWhile_cons, hl]
    | succ i =>
      have hx : p x = true := hfirst 0 x (Nat.succ_pos _) (by simp)
      rw [List.getElem?_cons_succ] at hi
      have := ih i hi (fun j l' hj hl' => hfirst (j + 1) l' (by omega) (by simpa using hl'))
      simp [List.dropWhile_cons, List.takeWhile_cons, hx, this.1, this.2]

theorem dropWhile_eq_nil_of (L : List GoString) (p : GoString → Bool)
    (h : ∀ l ∈ L, p l = true) : L.dropWhile p = [] ∧ L.takeWhile p = L := by
  induction L with
  | nil => simp
  | cons x rest ih =>
    have hx := h x (List.mem_cons_self _ _)
    have := ih (fun l hl => h l (List.mem_cons_of_mem _ hl))
    simp [List.dropWhile_cons, List.takeWhile_cons, hx, this.1, this.2]

theorem collectLoop_takeWhile (L : List GoString) :
    collectLoop [] L = (L.takeWhile (fun l => !isBreak (TrimSpace l))).map TrimSpace := by
  rw [collectLoop_eq, List.nil_append]
  induction L with
  | nil => rfl
  | cons x rest ih =>
    simp only [List.map_cons, List.takeWhile_cons]
    cases hb : isBreak (TrimSpace x)
    · simp [ih]
    · simp

/-- C12: with `L` the lines of the trimmed text, if the line at index `i` is
the first that after trimming is empty or starts with `#` or with three
backquotes, `stripFirstParagraph` returns the lines of `L` from index `i` on
joined with line feeds; if no line is such a boundary it returns the empty
string. Consequently, for a document with text `t` after its title heading,
the lines dropped from the body are the lines `extractDesc` collects
(trimmed) for the description, and the body is the rest. The last two parts
state the same with trimming in the words of the specification: `t` is any
text that is the input without its surrounding white space, and `U` any list
of the lines of `t` without theirs. -/
theorem stripFirstParagraph_lines (s : GoString) :
    (∀ i l, (Split (TrimSpace s))[i]? = some l → isBreak (TrimSpace l) = true →
      (∀ j l', j < i → (Split (TrimSpace s))[j]? = some l' →
        isBreak (TrimSpace l') = false) →
      stripFirstParagraph s = Join ((Split (TrimSpace s)).drop i) [NL]) ∧
    ((∀ l ∈ Split (TrimSpace s), isBreak (TrimSpace l) = false) →
      stripFirstParagraph s = []) ∧
    (∀ i l, (Split (TrimSpace (stripFirstH1 s)))[i]? = some l →
      isBreak (TrimSpace l) = true →
      (∀ j l', j < i → (Split (TrimSpace (stripFirstH1 s)))[j]? = some l' →
        isBreak (TrimSpace l') = false) →
      joinedDesc s = Join (((Split (TrimSpace (stripFirstH1 s))).take i).map TrimSpace) [SP] ∧
      stripFirstParagraph (stripFirstH1 s) =
        Join ((Split (TrimSpace (stripFirstH1 s))).drop i) [NL]) ∧
    ((∀ l ∈ Split (TrimSpace (stripFirstH1 s)), isBreak (TrimSpace l) = false) →
      joinedDesc s = Join ((Split (TrimSpace (stripFirstH1 s))).map TrimSpace) [SP] ∧
      stripFirstParagraph (stripFirstH1 s) = []) ∧
    (∀ t U, IsTrimOf t s → List.Forall₂ IsTrimOf U (Split t) →
      (∀ i u, U[i]? = some u → isBreak u = true →
        (∀ j u', j < i → U[j]? = some u' → isBreak u' = false) →
        stripFirstParagraph s = Join ((Split t).drop i) [NL]) ∧
      ((∀ u ∈ U, isBreak u = false) → stripFirstParagraph s = [])) ∧
    (∀ t U, IsTrimOf t (stripFirstH1 s) → List.Forall₂ IsTrimOf U (Split t) →
      (∀ i u, U[i]? = some u → isBreak u = true →
        (∀ j u', j < i → U[j]? = some u' → isBreak u' = false) →
        joinedDesc s = Join (U.take i) [SP] ∧
        stripFirstParagraph (stripFirstH1 s) = Join ((Split t).drop i) [NL]) ∧
      ((∀ u ∈ U, isBreak u = false) →
        joinedDesc s = Join U [SP] ∧ stripFirstParagraph (stripFirstH1 s) = [])) := by
  have first : ∀ (t : GoString) i l, (Split (TrimSpace t))[i]? = some l →
      isBreak (TrimSpace l) = true →
      (∀ j l', j < i → (Split (TrimSpace t))[j]? = some l' →
        isBreak (TrimSpace l') = false) →
      (Split (TrimSpace t)).dropWhile (fun l => !isBreak (TrimSpace l)) =
          (Split (TrimSpace t)).drop i ∧
        (Split (TrimSpace t)).takeWhile (fun l => !isBreak (TrimSpace l)) =
          (Split (TrimSpace t)).take i := by
    intro t i l hi hb hfirst
    apply dropWhile_eq_drop _ _ i l hi
    · simp [hb]
    · intro j l' hj hl'
      simp [hfirst j l' hj hl']
  have nobreak : ∀ (t : GoString), (∀ l ∈ Split (TrimSpace t), isBreak (TrimSpace l) = false) →
      (Split (TrimSpace t)).dropWhile (fun l => !isBreak (TrimSpace l)) = [] ∧
        (Split (TrimSpace t)).takeWhile (fun l => !isBreak (TrimSpace l)) =
          Split (TrimSpace t) := by
    intro t h
    apply dropWhile_eq_nil_of
    intro l hl
    simp [h l hl]
  have c1 : ∀ (x : GoString) i l, (Split (TrimSpace x))[i]? = some l →
      isBreak (TrimSpace l) = true →
      (∀ j l', j < i → (Split (TrimSpace x))[j]? = some l' →
        isBreak (TrimSpace l') = false) →
      stripFirstParagraph x = Join ((Split (TrimSpace x)).drop i) [NL] := by
    intro x i l hi hb hfirst
    unfold stripFirstParagraph
    rw [stripLoop_eq, (first x i l hi hb hfirst).1]
  have c2 : ∀ (x : GoString), (∀ l ∈ Split (TrimSpace x), isBreak (TrimSpace l) = false) →
      stripFirstParagraph x = [] := by
    intro x h
    unfold stripFirstParagraph
    rw [stripLoop_eq, (nobreak x h).1]
    rfl
  have c3 : ∀ i l, (Split (TrimSpace (stripFirstH1 s)))[i]? = some l →
      isBreak (TrimSpace l) = true →
      (∀ j l', j < i → (Split (TrimSpace (stripFirstH1 s)))[j]? = some l' →
        isBreak (TrimSpace l') = false) →
      joinedDesc s = Join (((Split (TrimSpace (stripFirstH1 s))).take i).map TrimSpace) [SP] ∧
      stripFirstParagraph (stripFirstH1 s) =
        Join ((Split (TrimSpace (stripFirstH1 s))).drop i) [NL] := by
    intro i l hi hb hfirst
    have := first (stripFirstH1 s) i l hi hb hfirst
    constructor
    · unfold joinedDesc
      simp only []
      rw [collectLoop_takeWhile, this.2]
    · exact c1 _ i l hi hb hfirst
  have c4 : (∀ l ∈ Split (TrimSpace (stripFirstH1 s)), isBreak (TrimSpace l) = false) →
      joinedDesc s = Join ((Split (TrimSpace (stripFirstH1 s))).map TrimSpace) [SP] ∧
      stripFirstParagraph (stripFirstH1 s) = [] := by
    intro h
    have := nobreak (stripFirstH1 s) h
    constructor
    · unfold joinedDesc
      simp only []
      rw [collectLoop_takeWhile, this.2]
    · exact c2 _ h
  have at_map : ∀ (X : List GoString) (i : Nat) (u : GoString), (X.map TrimSpace)[i]? = some u →
      ∃ l, X[i]? = some l ∧ u = TrimSpace l := by
    intro X i u h
    rw [List.getElem?_map] at h
    cases hx : X[i]? with
    | none => rw [hx] at h; cases h
    | some l =>
      rw [hx] at h
      simp only [Option.map_some', Option.some.injEq] at h
      exact ⟨l, rfl, h.symm⟩
  refine ⟨c1 s, c2 s, c3, c4, ?_, ?_⟩
  · intro t U ht hU
    have ht' := IsTrimOf_unique t _ ht
    subst ht'
    have hU' := forall₂_isTrimOf U _ hU
    subst hU'
    constructor
    · intro i u hi hb hfirst
      obtain ⟨l, hl, rfl⟩ := at_map _ i u hi
      refine c1 s i l hl hb ?_
      intro j l' hj hl'
      exact hfirst j (TrimSpace l') hj (by rw [List.getElem?_map, hl']; rfl)
    · intro h
      exact c2 s (fun l hl => h _ (List.mem_map_of_mem _ hl))
  · intro t U ht hU
    have ht' := IsTrimOf_unique t _ ht
    subst ht'
    have hU' := forall₂_isTrimOf U _ hU
    subst hU'
    constructor
    · intro i u hi hb hfirst
      obtain ⟨l, hl, rfl⟩ := at_map _ i u hi
      rw [← List.map_take]
      refine c3 i l hl hb ?_
      intro j l' hj hl'
      exact hfirst j (TrimSpace l') hj (by rw [List.getElem?_map, hl']; rfl)
    · intro h
      exact c4 (fun l hl => h _ (List.mem_map_of_mem _ hl))

theorem split_paragraphs :
    Split (TrimSpace (lit "First para\nsecond line\n\nmore\ntext")) =
      [lit "First para", lit "second line", [], lit "more", lit "text"] := by
  decide

theorem spacedLines_trim : List.Forall₂ IsTrimOf spacedLines (Split spacedTrimmed) := by
  have h : spacedLines = (Split spacedTrimmed).map TrimSpace := by decide
  rw [h]
  exact forall₂_map_TrimSpace _

theorem spacedLines_first (j : Nat) (u : GoString) (hj : j < 2)
    (h : spacedLines[j]? = some u) : isBreak u = false := by
  have hcases : j = 0 ∨ j = 1 := by omega
  rcases hcases with rfl | rfl
  · simp only [spacedLines, List.getElem?_cons_zero, Option.some.injEq] at h
    subst h
    decide
  · simp only [spacedLines, List.getElem?_cons_succ, List.getElem?_cons_zero,
      Option.some.injEq] at h
    subst h
    decide

/-- Witness of C12: a two-line paragraph, a blank line and more text; the
body starts at the blank line (index 2). A text without a boundary line has
an empty body. For the document with a heading before that text, the
description is made of the two lines before the blank line and the body is
the rest. The same holds of `spacedText`, which has white space around the
text and around its lines: the body starts at the line of a space, a tab and
a space. -/
theorem stripFirstParagraph_lines_witness :
    stripFirstParagraph (lit "First para\nsecond line\n\nmore\ntext") =
      Join ((Split (TrimSpace (lit "First para\nsecond line\n\nmore\ntext"))).drop 2) [NL] ∧
    stripFirstParagraph (lit "First para\nsecond line\n\nmore\ntext") = lit "\nmore\ntext" ∧
    stripFirstParagraph (lit "one\ntwo") = [] ∧
    joinedDesc (lit "# A\n\nFirst para\nsecond line\n\nmore\ntext") =
      lit "First para second line" ∧
    stripFirstParagraph (stripFirstH1 (lit "# A\n\nFirst para\nsecond line\n\nmore\ntext")) =
      lit "\nmore\ntext" ∧
    IsTrimOf spacedTrimmed spacedText ∧
    stripFirstParagraph spacedText = Join ((Split spacedTrimmed).drop 2) [NL] ∧
    stripFirstParagraph spacedText = lit " \t \n  more\ntext" ∧
    joinedDesc (lit "# A\n\n" ++ spacedText) = lit "First para second line" ∧
    stripFirstParagraph (stripFirstH1 (lit "# A\n\n" ++ spacedText)) =
      lit " \t \n  more\ntext" ∧
    stripFirstParagraph (lit " \tone \n\ttwo\u2003\n ") = [] :=
  ⟨(stripFirstParagraph_lines (lit "First para\nsecond line\n\nmore\ntext")).1 2 []
      (by decide) (by decide) (by
        intro j l' hj hl'
        rw [split_paragraphs] at hl'
        have hcases : j = 0 ∨ j = 1 := by omega
        rcases hcases with rfl | rfl
        · simp only [List.getElem?_cons_zero, Option.some.injEq] at hl'
          subst hl'
          decide
        · simp only [List.getElem?_cons_succ, List.getElem?_cons_zero,
            Option.some.injEq] at hl'
          subst hl'
          decide),
    by decide,
    (stripFirstParagraph_lines (lit "one\ntwo")).2.1 (by decide),
    by decide, by decide,
    (isTrimOf_iff _ _).2 (by decide),
    ((stripFirstParagraph_lines spacedText).2.2.2.2.1 spacedTrimmed spacedLines
      ((isTrimOf_iff _ _).2 (by decide)) spacedLines_trim).1 2 [] (by decide) (by decide)
      spacedLines_first,
    by decide,
    (((stripFirstParagraph_lines (lit "# A\n\n" ++ spacedText)).2.2.2.2.2 spacedTrimmed
      spacedLines ((isTrimOf_iff _ _).2 (by decide)) spacedLines_trim).1 2 [] (by decide)
      (by decide) spacedLines_first).1.trans (by decide),
    by decide,
    (stripFirstParagraph_lines (lit " \tone \n\ttwo\u2003\n ")).2.1 (by decide)⟩

/-! ## Stripping the title heading -/

theorem drop_firstLine (s : GoString) (k : Nat) :
    s.drop ((firstLine s).length + k) = (afterLine s).drop k := by
  have h : s.drop ((firstLine s).length + k) =
      (firstLine s ++ afterLine s).drop ((firstLine s).length + k) := by
    rw [firstLine_append_afterLine]
  rw [h, List.drop_append]

theorem drop_takeWhile_length (t : GoString) (p : Nat → Bool) :
    t.drop (t.takeWhile p).length = t.dropWhile p := by
  have h : t.drop (t.takeWhile p).length =
      (t.takeWhile p ++ t.dropWhile p).drop (t.takeWhile p).length := by
    rw [List.takeWhile_append_dropWhile]
  rw [h, List.drop_left]

theorem h1Scan_span_aux (n : Nat) : ∀ (s : GoString) (pos : Nat), s.length ≤ n →
    match headingSpanFrom pos (Split s) with
    | none => h1Scan pos true s = none
    | some (off, len) =>
      ∃ m, h1Scan pos true s = some m ∧ m.start = off ∧ pos ≤ off ∧ pos ≤ m.stop ∧
        s.drop (m.stop - pos) = (s.drop (off - pos + len)).dropWhile (· = NL) := by
  induction n with
  | zero =>
    intro s pos hn
    have : s = [] := List.length_eq_zero.1 (by omega)
    subst this
    simp [h1Scan, Split, headingSpanFrom, isHeading, HasPrefix]
  | succ n ih =>
    intro s pos hn
    rw [h1Scan_true, Split_eq, headingSpanFrom]
    by_cases hh : isHeading (firstLine s) = true
    · rw [if_pos hh, if_pos hh]
      simp only []
      refine ⟨_, rfl, rfl, le_refl _, ?_, ?_⟩
      · show pos ≤ pos + (firstLine s).length + _
        omega
      show s.drop (pos + (firstLine s).length +
          (List.takeWhile (fun x => decide (x = NL)) (afterLine s)).length - pos) = _
      have e1 : pos + (firstLine s).length +
          (List.takeWhile (fun x => decide (x = NL)) (afterLine s)).length - pos =
          (firstLine s).length +
            (List.takeWhile (fun x => decide (x = NL)) (afterLine s)).length := by omega
      have e2 : pos - pos + (firstLine s).length = (firstLine s).length + 0 := by omega
      rw [e1, e2, drop_firstLine, drop_firstLine, List.drop_zero, drop_takeWhile_length]
    · rw [if_neg hh, if_neg hh]
      have hlen := afterLine_length_le s
      cases hal : afterLine s with
      | nil => simp [headingSpanFrom]
      | cons x rest =>
        simp only []
        rw [hal] at hlen
        simp only [List.length_cons] at hlen
        have := ih rest (pos + (firstLine s).length + 1) (by omega)
        cases hsp : headingSpanFrom (pos + (firstLine s).length + 1) (Split rest) with
        | none =>
          rw [hsp] at this
          simpa using this
        | some ol =>
          obtain ⟨off, len⟩ := ol
          rw [hsp] at this
          simp only [] at this ⊢
          obtain ⟨m, hm, hstart, hle, hstop, hdrop⟩ := this
          refine ⟨m, hm, hstart, by omega, by omega, ?_⟩
          have e1 : m.stop - pos =
              (firstLine s).length + (1 + (m.stop - (pos + (firstLine s).length + 1))) := by
            omega
          have e2 : off - pos + len =
              (firstLine s).length + (1 + (off - (pos + (firstLine s).length + 1) + len)) := by
            omega
          rw [e1, e2, drop_firstLine, drop_firstLine, hal]
          simp only [Nat.add_comm 1, List.drop_succ_cons]
          exact hdrop

theorem h1Find_span (s : GoString) :
    match headingSpan s with
    | none => h1Find s = none
    | some (off, len) =>
      ∃ m, h1Find s = some m ∧ m.start = off ∧
        s.drop m.stop = (s.drop (off + len)).dropWhile (· = NL) := by
  have := h1Scan_span_aux s.length s 0 (le_refl _)
  unfold headingSpan h1Find
  cases hsp : headingSpanFrom 0 (Split s) with
  | none =>
    rw [hsp] at this
    exact this
  | some ol =>
    obtain ⟨off, len⟩ := ol
    rw [hsp] at this
    simp only [] at this ⊢
    obtain ⟨m, hm, hstart, _, _, hdrop⟩ := this
    exact ⟨m, hm, hstart, by simpa using hdrop⟩

theorem headingSpanFrom_none (L : List GoString) (pos : Nat) :
    headingSpanFrom pos L = none ↔ ∀ l ∈ L, isHeading l = false := by
  induction L generalizing pos with
  | nil => simp [headingSpanFrom]
  | cons x rest ih =>
    rw [headingSpanFrom]
    cases hx : isHeading x
    · simp [ih, hx]
    · simp [hx]

/-- C13 (as amended): when the first title heading line of a document (the
first line that begins with `# ` and has at least one more byte) starts at a
byte offset below 100, `stripFirstH1` returns the text that follows that
line and the run of line feeds right after it: the heading line, those line
feeds and everything before the heading are removed. -/
theorem stripFirstH1_heading (s : GoString) (off len : Nat)
    (h : headingSpan s = some (off, len)) (hoff : off < 100) :
    stripFirstH1 s = (s.drop (off + len)).dropWhile (· = NL) := by
  have := h1Find_span s
  rw [h] at this
  obtain ⟨m, hm, hstart, hdrop⟩ := this
  unfold stripFirstH1
  rw [hm]
  simp only []
  rw [if_pos (by omega), hdrop]

/-- Witness of C13 (as amended): in `intro`, `# Title`, a blank line and
`body` the heading line starts at offset 6 and has 7 bytes; the result is
`body`. A leading heading gives the text after it. -/
theorem stripFirstH1_heading_witness :
    stripFirstH1 (lit "intro\n# Title\n\nbody") =
      ((lit "intro\n# Title\n\nbody").drop (6 + 7)).dropWhile (· = NL) ∧
    stripFirstH1 (lit "intro\n# Title\n\nbody") = lit "body" ∧
    stripFirstH1 (lit "# Title\n\nbody\n\nmore") = lit "body\n\nmore" :=
  ⟨stripFirstH1_heading (lit "intro\n# Title\n\nbody") 6 7 (by decide) (by decide),
    by decide,
    (stripFirstH1_heading (lit "# Title\n\nbody\n\nmore") 0 7 (by decide) (by decide)).trans
      (by decide)⟩

/-- Counterexample to C13 as stated: in `intro`, `# Title`, a blank line and
`body` the heading line starts at offset 6, within the first 100 characters;
deleting exactly the heading line and the line feeds after it would leave
`intro` and `body`, but `stripFirstH1` returns `body`: the text before the
heading is gone. -/
theorem stripFirstH1_drops_intro :
    headingSpan (lit "intro\n# Title\n\nbody") = some (6, 7) ∧
    (lit "intro\n# Title\n\nbody").take 6 ++
      (((lit "intro\n# Title\n\nbody").drop (6 + 7)).dropWhile (· = NL)) = lit "intro\nbody" ∧
    stripFirstH1 (lit "intro\n# Title\n\nbody") = lit "body" ∧
    stripFirstH1 (lit "intro\n# Title\n\nbody") ≠
      (lit "intro\n# Title\n\nbody").take 6 ++
        (((lit "intro\n# Title\n\nbody").drop (6 + 7)).dropWhile (· = NL)) := by
  refine ⟨by decide, by decide, by decide, by decide⟩

/-- C14: a document in which no line is a title heading line, or whose first
title heading line starts at byte offset 100 or later, is returned unchanged
by `stripFirstH1`. -/
theorem stripFirstH1_unchanged (s : GoString)
    (h : (∀ l ∈ Split s, isHeading l = false) ∨
      ∃ off len, headingSpan s = some (off, len) ∧ 100 ≤ off) :
    stripFirstH1 s = s := by
  have hspan := h1Find_span s
  rcases h with h | ⟨off, len, hs, hoff⟩
  · have : headingSpan s = none := (headingSpanFrom_none _ 0).2 h
    rw [this] at hspan
    unfold stripFirstH1
    rw [hspan]
  · rw [hs] at hspan
    obtain ⟨m, hm, hstart, _⟩ := hspan
    unfold stripFirstH1
    rw [hm]
    simp only []
    rw [if_neg (by omega)]

/-- Witness of C14: a document without a title heading line, and a document
whose title heading line starts at offset 100. -/
theorem stripFirstH1_unchanged_witness :
    stripFirstH1 (lit "## Section\n\ntext") = lit "## Section\n\ntext" ∧
    stripFirstH1 (List.replicate 99 97 ++ lit "\n# Late\n\nbody") =
      List.replicate 99 97 ++ lit "\n# Late\n\nbody" :=
  ⟨stripFirstH1_unchanged (lit "## Section\n\ntext") (Or.inl (by decide)),
    stripFirstH1_unchanged (List.replicate 99 97 ++ lit "\n# Late\n\nbody")
      (Or.inr ⟨100, 6, by decide, by decide⟩)⟩

/-! ## The chain of links -/

theorem trimSuffix_of_postFile (b : GoString) (m : GoString × GoString)
    (hm : postFile b = some m) :
    TrimSuffix b dotMd = m.1 ++ HYPHEN :: m.2 ∧ b = TrimSuffix b dotMd ++ dotMd := by
  obtain ⟨_, _, _, _, _, _, hb, _⟩ := postFile_spec b m hm
  have hsuf : dotMd.isSuffixOf b = true := by
    rw [hb]
    simp only [List.isSuffixOf_iff_suffix]
    exact ⟨m.1 ++ HYPHEN :: m.2, by simp⟩
  have hb' : b = (m.1 ++ HYPHEN :: m.2) ++ dotMd := by rw [hb]; simp
  have hl : b.length - dotMd.length = (m.1 ++ HYPHEN :: m.2).length := by
    rw [hb']; simp only [List.length_append, List.length_cons]; omega
  have htake : b.take (b.length - dotMd.length) = m.1 ++ HYPHEN :: m.2 := by
    rw [hl]
    have h2 : b.take (m.1 ++ HYPHEN :: m.2).length =
        ((m.1 ++ HYPHEN :: m.2) ++ dotMd).take (m.1 ++ HYPHEN :: m.2).length :=
      congrArg (List.take _) hb'
    rw [h2, List.take_left]
  unfold TrimSuffix
  rw [if_pos hsuf, htake]
  exact ⟨rfl, hb'⟩

theorem run_slugs_nodup (S : SliceSorter) (out : OutputSide) (dir : List SourceFile)
    (convert : GoString → Option GoString) (site : Site)
    (hnodup : (dir.map (fun f => f.name)).Nodup)
    (h : run S out dir convert = .ok site) : (site.posts.map Post.Slug).Nodup := by
  obtain ⟨_, posts, hp, hs, _⟩ := run_ok S out dir convert site h
  obtain ⟨hposts, hall⟩ := buildLoop_ok dir convert _ [] posts hp
  rw [hs, wire_map_slug, ((S.perm newerFirst posts).map Post.Slug).nodup_iff, hposts,
    List.nil_append, filterMap_map_slug dir convert _ hall]
  have hperm : (discovered dir).Perm ((dir.map (fun f => f.name)).filter globMatch) :=
    List.perm_insertionSort _ _
  have hnd : (discovered dir).Nodup := hperm.nodup_iff.2 (hnodup.filter _)
  apply List.Nodup.map_on _ (hnd.filter _)
  intro a ha b hb hab
  have ha' := (List.mem_filter.1 ha).2
  have hb' := (List.mem_filter.1 hb).2
  obtain ⟨ma, hma⟩ := Option.isSome_iff_exists.1 ha'
  obtain ⟨mb, hmb⟩ := Option.isSome_iff_exists.1 hb'
  rw [(trimSuffix_of_postFile a ma hma).2, (trimSuffix_of_postFile b mb hmb).2, hab]

theorem run_pairwise_dates (S : SliceSorter) (out : OutputSide) (dir : List SourceFile)
    (convert : GoString → Option GoString) (site : Site)
    (h : run S out dir convert = .ok site) :
    site.posts.Pairwise (fun a b => b.Date.After a.Date = false) := by
  obtain ⟨_, posts, _, hs, _⟩ := run_ok S out dir convert site h
  have h1 := S.sorted newerFirst posts strictWeak_newerFirst
  have h2 : ((S.sort newerFirst posts).map Post.Date).Pairwise
      (fun x y => y.After x = false) := by
    rw [List.pairwise_map]; exact h1
  rw [← wire_map_date, ← hs, List.pairwise_map] at h2
  exact h2

theorem run_links_at (S : SliceSorter) (out : OutputSide) (dir : List SourceFile)
    (convert : GoString → Option GoString) (site : Site)
    (h : run S out dir convert = .ok site) (i : Nat) (hi : i < site.posts.length) :
    (i = 0 → (site.posts[i]).Prev = none) ∧
    (∀ h0 : 0 < i, (site.posts[i]).Prev =
      some ⟨(site.posts[i - 1]).Slug, (site.posts[i - 1]).Title⟩) ∧
    (i + 1 = site.posts.length → (site.posts[i]).Next = none) ∧
    (∀ h1 : i + 1 < site.posts.length, (site.posts[i]).Next =
      some ⟨(site.posts[i + 1]).Slug, (site.posts[i + 1]).Title⟩) := by
  obtain ⟨_, posts, hp, hs, _⟩ := run_ok S out dir convert site h
  have hnone := run_posts_unlinked S dir convert posts hp
  have key := wire_links (S.sort newerFirst posts) hnone i (by rw [← hs]; exact hi)
  obtain ⟨sp, sw⟩ := site
  simp only at hs
  subst hs
  exact key

theorem slug_index_inj (ps : List Post) (hnd : (ps.map Post.Slug).Nodup) (i j : Nat)
    (hi : i < ps.length) (hj : j < ps.length) (h : (ps[i]).Slug = (ps[j]).Slug) : i = j := by
  have hi' : i < (ps.map Post.Slug).length := by simpa using hi
  have hj' : j < (ps.map Post.Slug).length := by simpa using hj
  have : (ps.map Post.Slug)[i] = (ps.map Post.Slug)[j] := by
    simpa using h
  exact (hnd.getElem_inj_iff).1 this

theorem chain_of_links (ps : List Post) (hnd : (ps.map Post.Slug).Nodup)
    (hpw : ps.Pairwise (fun a b => b.Date.After a.Date = false))
    (hlinks : ∀ i (hi : i < ps.length),
      (i = 0 → (ps[i]).Prev = none) ∧
      (∀ h0 : 0 < i, (ps[i]).Prev = some ⟨(ps[i - 1]).Slug, (ps[i - 1]).Title⟩) ∧
      (i + 1 = ps.length → (ps[i]).Next = none) ∧
      (∀ h1 : i + 1 < ps.length, (ps[i]).Next =
        some ⟨(ps[i + 1]).Slug, (ps[i + 1]).Title⟩)) :
    (∀ p ∈ ps, ∀ l, p.Next = some l →
      ∃ q ∈ ps, q.Slug = l.Slug ∧ (∀ q' ∈ ps, q'.Slug = l.Slug → q' = q) ∧
        q.Prev = some ⟨p.Slug, p.Title⟩ ∧ q.Date.After p.Date = false) ∧
    (∀ q ∈ ps, ∀ l, q.Prev = some l →
      ∃ p ∈ ps, p.Slug = l.Slug ∧ (∀ p' ∈ ps, p'.Slug = l.Slug → p' = p) ∧
        p.Next = some ⟨q.Slug, q.Title⟩ ∧
        (∀ p' ∈ ps, ∀ l', p'.Next = some l' → l'.Slug = q.Slug → p' = p) ∧
        q.Date.After p.Date = false) := by
  have hget := List.pairwise_iff_getElem.1 hpw
  constructor
  · intro p hp l hl
    obtain ⟨i, hi, rfl⟩ := List.getElem_of_mem hp
    obtain ⟨_, _, hlast, hnext⟩ := hlinks i hi
    have h1 : i + 1 < ps.length := by
      by_contra hc
      have : i + 1 = ps.length := by omega
      rw [hlast this] at hl
      cases hl
    rw [hnext h1] at hl
    simp only [Option.some.injEq] at hl
    subst hl
    refine ⟨ps[i + 1], List.getElem_mem _, rfl, ?_, ?_, ?_⟩
    · intro q' hq' hslug
      obtain ⟨j, hj, rfl⟩ := List.getElem_of_mem hq'
      have := slug_index_inj ps hnd j (i + 1) hj h1 hslug
      subst this
      rfl
    · have := (hlinks (i + 1) h1).2.1 (by omega)
      simpa using this
    · exact hget i (i + 1) hi h1 (by omega)
  · intro q hq l hl
    obtain ⟨i, hi, rfl⟩ := List.getElem_of_mem hq
    obtain ⟨hfirst, hprev, _, _⟩ := hlinks i hi
    have h0 : 0 < i := by
      by_contra hc
      have : i = 0 := by omega
      rw [hfirst this] at hl
      cases hl
    rw [hprev h0] at hl
    simp only [Option.some.injEq] at hl
    subst hl
    have him : i - 1 < ps.length := by omega
    have hnext := (hlinks (i - 1) him).2.2.2
    have hsucc : i - 1 + 1 = i := by omega
    refine ⟨ps[i - 1], List.getElem_mem _, rfl, ?_, ?_, ?_, ?_⟩
    · intro p' hp' hslug
      obtain ⟨j, hj, rfl⟩ := List.getElem_of_mem hp'
      have := slug_index_inj ps hnd j (i - 1) hj him hslug
      subst this
      rfl
    · have := hnext (by omega)
      simpa [hsucc] using this
    · intro p' hp' l' hl' hslug
      obtain ⟨j, hj, rfl⟩ := List.getElem_of_mem hp'
      obtain ⟨_, _, hlast', hnext'⟩ := hlinks j hj
      have h1 : j + 1 < ps.length := by
        by_contra hc
        have : j + 1 = ps.length := by omega
        rw [hlast' this] at hl'
        cases hl'
      rw [hnext' h1] at hl'
      simp only [Option.some.injEq] at hl'
      subst hl'
      have := slug_index_inj ps hnd (j + 1) i h1 hi hslug
      subst this
      simp
    · exact hget (i - 1) i him hi (by omega)

/-- C15: when the base names are pairwise distinct and the build succeeds,
the links form a doubly-linked chain in date order: for every post `p` with a
`Next` link exactly one post `q` of the collection has the slug of that link,
`q.Prev` is `(p.Slug, p.Title)` and `q` is not later than `p`; and every post
`q` with a `Prev` link is the `Next` target of exactly the post that link
names, which is not earlier than `q`. -/
theorem run_links_chain (S : SliceSorter) (out : OutputSide) (dir : List SourceFile)
    (convert : GoString → Option GoString) (site : Site)
    (hnodup : (dir.map (fun f => f.name)).Nodup)
    (h : run S out dir convert = .ok site) :
    (∀ p ∈ site.posts, ∀ l, p.Next = some l →
      ∃ q ∈ site.posts, q.Slug = l.Slug ∧
        (∀ q' ∈ site.posts, q'.Slug = l.Slug → q' = q) ∧
        q.Prev = some ⟨p.Slug, p.Title⟩ ∧ q.Date.After p.Date = false) ∧
    (∀ q ∈ site.posts, ∀ l, q.Prev = some l →
      ∃ p ∈ site.posts, p.Slug = l.Slug ∧
        (∀ p' ∈ site.posts, p'.Slug = l.Slug → p' = p) ∧
        p.Next = some ⟨q.Slug, q.Title⟩ ∧
        (∀ p' ∈ site.posts, ∀ l', p'.Next = some l' → l'.Slug = q.Slug → p' = p) ∧
        q.Date.After p.Date = false) :=
  chain_of_links site.posts (run_slugs_nodup S out dir convert site hnodup h)
    (run_pairwise_dates S out dir convert site h)
    (fun i hi => run_links_at S out dir convert site h i hi)

/-- Witness of C15 on the two-post example: the names are distinct, the build
succeeds, and its two posts point at each other. -/
theorem run_links_chain_witness :
    (twoPosts.map (fun f => f.name)).Nodup ∧
    run insertionSorter outputOk twoPosts echoConvert = .ok twoPostsSite ∧
    postB.Next = some ⟨postA.Slug, postA.Title⟩ ∧
    postA.Prev = some ⟨postB.Slug, postB.Title⟩ ∧
    ((∀ p ∈ twoPostsSite.posts, ∀ l, p.Next = some l →
      ∃ q ∈ twoPostsSite.posts, q.Slug = l.Slug ∧
        (∀ q' ∈ twoPostsSite.posts, q'.Slug = l.Slug → q' = q) ∧
        q.Prev = some ⟨p.Slug, p.Title⟩ ∧ q.Date.After p.Date = false) ∧
    (∀ q ∈ twoPostsSite.posts, ∀ l, q.Prev = some l →
      ∃ p ∈ twoPostsSite.posts, p.Slug = l.Slug ∧
        (∀ p' ∈ twoPostsSite.posts, p'.Slug = l.Slug → p' = p) ∧
        p.Next = some ⟨q.Slug, q.Title⟩ ∧
        (∀ p' ∈ twoPostsSite.posts, ∀ l', p'.Next = some l' → l'.Slug = q.Slug → p' = p) ∧
        q.Date.After p.Date = false)) :=
  ⟨by decide, run_twoPosts, by decide, by decide,
    run_links_chain insertionSorter outputOk twoPosts echoConvert twoPostsSite (by decide)
      run_twoPosts⟩

/-! ## The ISO date -/

theorem padDigits_two (a b : Nat) (ha : isDigit a = true) (hb : isDigit b = true) :
    padDigits 2 (digitVal a * 10 + digitVal b) = [a, b] := by
  simp only [isDigit, decide_eq_true_eq] at ha hb
  simp only [padDigits, digitVal, List.nil_append, List.singleton_append, List.cons.injEq,
    and_true]
  constructor <;> omega

theorem padDigits_four (a b c d : Nat) (ha : isDigit a = true) (hb : isDigit b = true)
    (hc : isDigit c = true) (hd : isDigit d = true) :
    padDigits 4 (digitVal a * 1000 + digitVal b * 100 + digitVal c * 10 + digitVal d) =
      [a, b, c, d] := by
  simp only [isDigit, decide_eq_true_eq] at ha hb hc hd
  simp only [padDigits, digitVal, List.nil_append, List.singleton_append, List.cons_append,
    List.cons.injEq, and_true]
  refine ⟨?_, ?_, ?_, ?_⟩ <;> omega

theorem parseDate_shape (v : GoString) (d : Date) (h : parseDate v = some d) :
    ∃ y1 y2 y3 y4 m1 m2 d1 d2,
      isDigit y1 = true ∧ isDigit y2 = true ∧ isDigit y3 = true ∧ isDigit y4 = true ∧
      isDigit m1 = true ∧ isDigit m2 = true ∧ isDigit d1 = true ∧ isDigit d2 = true ∧
      v = [y1, y2, y3, y4, HYPHEN, m1, m2, HYPHEN, d1, d2] ∧
      d = ⟨digitVal y1 * 1000 + digitVal y2 * 100 + digitVal y3 * 10 + digitVal y4,
        digitVal m1 * 10 + digitVal m2, digitVal d1 * 10 + digitVal d2⟩ ∧
      realDate d.year d.month d.day = true := by
  unfold parseDate at h
  split at h
  · rename_i y1 y2 y3 y4 h1 m1 m2 h2 d1 d2
    split at h
    · rename_i hc
      simp only [Bool.and_eq_true, beq_iff_eq] at hc
      obtain ⟨⟨⟨⟨⟨⟨⟨⟨⟨a1, a2⟩, a3⟩, a4⟩, a5⟩, a6⟩, a7⟩, a8⟩, a9⟩, a10⟩ := hc
      subst a5 a8
      have hp := parseDate_digits y1 y2 y3 y4 m1 m2 d1 d2 a1 a2 a3 a4 a6 a7 a9 a10
      simp only [] at h
      refine ⟨y1, y2, y3, y4, m1, m2, d1, d2, a1, a2, a3, a4, a6, a7, a9, a10, rfl, ?_⟩
      split at h
      · cases h
      · split at h
        · cases h
        · rename_i hmo hday
          simp only [Option.some.injEq] at h
          subst h
          refine ⟨rfl, ?_⟩
          simp only [realDate, decide_eq_true_eq]
          omega
    · cases h
  · cases h

theorem formatISO_parseDate (v : GoString) (d : Date) (h : parseDate v = some d) :
    d.formatISO = v := by
  obtain ⟨y1, y2, y3, y4, m1, m2, d1, d2, a1, a2, a3, a4, a6, a7, a9, a10, hv, hd, _⟩ :=
    parseDate_shape v d h
  subst hv hd
  simp only [Date.formatISO, padDigits_four _ _ _ _ a1 a2 a3 a4, padDigits_two _ _ a6 a7,
    padDigits_two _ _ a9 a10]
  rfl

theorem mem_wire (ps : List Post) (p : Post) (hp : p ∈ wire ps) :
    ∃ p0 ∈ ps, p.Slug = p0.Slug ∧ p.Date = p0.Date := by
  obtain ⟨i, hi⟩ := List.mem_iff_getElem?.1 hp
  rw [wire_getElem?] at hi
  cases hq : ps[i]? with
  | none => rw [hq] at hi; cases hi
  | some p0 =>
    rw [hq] at hi
    simp only [Option.map_some', Option.some.injEq] at hi
    subst hi
    exact ⟨p0, List.mem_iff_getElem?.2 ⟨i, hq⟩, rfl, rfl⟩

/-- C16: formatting a date parsed from a date text `YYYY-MM-DD` with the
layout `2006-01-02` gives that text back, for every valid calendar date with
a four-digit year; hence for every post of a successful build `DateISO()` is
the first ten bytes of the post's slug. -/
theorem run_dateISO_slug_head :
    (∀ v d, parseDate v = some d → d.formatISO = v) ∧
    (∀ (S : SliceSorter) (out : OutputSide) (dir : List SourceFile)
      (convert : GoString → Option GoString)
      (site : Site), run S out dir convert = .ok site →
      ∀ p ∈ site.posts, p.DateISO = p.Slug.take 10) := by
  refine ⟨formatISO_parseDate, ?_⟩
  intro S out dir convert site h p hp
  obtain ⟨_, posts, hb, hs, _⟩ := run_ok S out dir convert site h
  rw [hs] at hp
  obtain ⟨p0, hp0, hslug, hdate⟩ := mem_wire _ p hp
  have hmem : p0 ∈ posts := (S.perm newerFirst posts).mem_iff.1 hp0
  rw [(buildLoop_ok dir convert _ [] posts hb).1] at hmem
  simp only [List.nil_append, List.mem_filterMap] at hmem
  obtain ⟨b, _, hpo⟩ := hmem
  obtain ⟨_, _, hsl, m, hm, hparse⟩ := postOf_links dir convert b p0 hpo
  have hfmt := formatISO_parseDate m.1 p0.Date hparse
  obtain ⟨_, _, _, _, _, _, _, _, _, _, _, _, _, _, _, _, hv, _, _⟩ :=
    parseDate_shape m.1 p0.Date hparse
  have hlen : m.1.length = 10 := by rw [hv]; rfl
  unfold Post.DateISO
  rw [hslug, hdate, hsl, (trimSuffix_of_postFile b m hm).1, hfmt, List.take_append_eq_append_take,
    List.take_of_length_le (by omega)]
  simp [hlen]

/-- Witness of C16: the dates `2024-02-29` (a leap day), `0000-01-01` and
`9999-12-31` are given back by formatting, and the posts of the two-post
example carry the date prefix of their slug. -/
theorem run_dateISO_slug_head_witness :
    (⟨2024, 2, 29⟩ : Date).formatISO = lit "2024-02-29" ∧
    (⟨0, 1, 1⟩ : Date).formatISO = lit "0000-01-01" ∧
    (⟨9999, 12, 31⟩ : Date).formatISO = lit "9999-12-31" ∧
    postA.DateISO = lit "2024-01-01" ∧
    ∀ p ∈ twoPostsSite.posts, p.DateISO = p.Slug.take 10 :=
  ⟨run_dateISO_slug_head.1 (lit "2024-02-29") ⟨2024, 2, 29⟩ (by decide),
    run_dateISO_slug_head.1 (lit "0000-01-01") ⟨0, 1, 1⟩ (by decide),
    run_dateISO_slug_head.1 (lit "9999-12-31") ⟨9999, 12, 31⟩ (by decide),
    by decide,
    run_dateISO_slug_head.2 insertionSorter outputOk twoPosts echoConvert twoPostsSite
      run_twoPosts⟩

/-! ## Truncation and UTF-8 -/

/-- C17: the document of 250 characters `中` is valid UTF-8, but its
description is 66 characters, the first two bytes of the 67th and the
ellipsis, which is not valid UTF-8: the cut at byte 200 splits a
character. -/
theorem extractDesc_splits_character :
    validUTF8 ideographs = true ∧
    (joinedDesc ideographs).length = 750 ∧
    extractDesc ideographs = repeatChar 66 [0xE4, 0xB8, 0xAD] ++ [0xE4, 0xB8] ++ ellipsis ∧
    validUTF8 (extractDesc ideographs) = false := by
  refine ⟨by decide, by decide, by decide, by decide⟩

end Rugoblog
